import Mathlib

/-!
Verification of the binary max-heap algorithm library
src/ThirdParty/maslib/src/common/mas/core/heap.hpp (namespace mas::heap).

The sequence [first, last) is modelled as a `List α`; iterator arithmetic
becomes Nat indices relative to `first`.  Every array access in the source
is in bounds under the stated preconditions, so reads are modelled with
`List.getD` (default value never observed) and writes with `List.set`.
The source's while loops become structural recursion over an explicit
fuel argument; each wrapper supplies fuel that provably dominates the
loop's iteration count, so the fuel-exhausted branch (which returns the
same value as the loop-exit branch) is never the one that fires.
The comparator `compare(a,b) = true iff a < b` is a parameter
`lt : α → α → Bool`; theorems that need it assume it induces a strict
weak order (asymmetry plus negative transitivity).
-/

namespace MasHeap

variable {α : Type} [Inhabited α]

/-- Read of `*(first + i)`; in-bounds at every use site under the
preconditions, so the default is never observed. -/
def geti (a : List α) (i : Nat) : α := a.getD i default

theorem geti_set_self (a : List α) (i : Nat) (v : α) (h : i < a.length) :
    geti (a.set i v) i = v := by
  unfold geti
  induction a generalizing i with
  | nil => simp at h
  | cons x xs ih =>
    cases i with
    | zero => simp
    | succ j => simpa using ih j (by simpa using h)

theorem geti_set_ne (a : List α) (i j : Nat) (v : α) (h : i ≠ j) :
    geti (a.set i v) j = geti a j := by
  unfold geti
  induction a generalizing i j with
  | nil => simp
  | cons x xs ih =>
    cases i with
    | zero =>
      cases j with
      | zero => exact absurd rfl h
      | succ j2 => simp
    | succ i2 =>
      cases j with
      | zero => simp
      | succ j2 => simpa using ih i2 j2 (by omega)

theorem set_geti_self (a : List α) (i : Nat) :
    a.set i (geti a i) = a := by
  unfold geti
  induction a generalizing i with
  | nil => simp
  | cons x xs ih =>
    cases i with
    | zero => simp
    | succ j => simpa using ih j

theorem set_set_self (a : List α) (i : Nat) (v w : α) :
    (a.set i v).set i w = a.set i w := by
  induction a generalizing i with
  | nil => simp
  | cons x xs ih =>
    cases i with
    | zero => simp
    | succ j => simpa using ih j

theorem set_comm_ne (a : List α) (i j : Nat) (v w : α) (h : i ≠ j) :
    (a.set i v).set j w = (a.set j w).set i v := by
  induction a generalizing i j with
  | nil => simp
  | cons x xs ih =>
    cases i with
    | zero =>
      cases j with
      | zero => exact absurd rfl h
      | succ j2 => simp
    | succ i2 =>
      cases j with
      | zero => simp
      | succ j2 => simpa using ih i2 j2 (by omega)

/-- Replacing the element at an in-bounds index exchanges it in the multiset. -/
theorem mset_set (a : List α) (i : Nat) (v : α) (h : i < a.length) :
    ((a.set i v : List α) : Multiset α) + {geti a i} = (a : Multiset α) + {v} := by
  unfold geti
  induction a generalizing i with
  | nil => simp at h
  | cons x xs ih =>
    cases i with
    | zero =>
      simp only [List.set_cons_zero, List.getD_cons_zero]
      show (v ::ₘ (xs : Multiset α)) + {x} = (x ::ₘ (xs : Multiset α)) + {v}
      rw [add_comm, add_comm (x ::ₘ (xs : Multiset α)), Multiset.singleton_add,
        Multiset.singleton_add, Multiset.cons_swap]
    | succ j =>
      simp only [List.set_cons_succ, List.getD_cons_succ]
      show (x ::ₘ ((xs.set j v : List α) : Multiset α)) + {xs.getD j default}
          = (x ::ₘ (xs : Multiset α)) + {v}
      rw [Multiset.cons_add, Multiset.cons_add, ih j (by simpa using h)]

theorem drop_last_eq (a : List α) (h : 0 < a.length) :
    a.drop (a.length - 1) = [geti a (a.length - 1)] := by
  unfold geti
  induction a with
  | nil => simp at h
  | cons x xs ih =>
    cases xs with
    | nil => simp
    | cons y ys =>
      have h2 : 0 < (y :: ys).length := by simp
      have hlen : (x :: y :: ys).length - 1 = (y :: ys).length - 1 + 1 := by
        simp
      rw [hlen, List.drop_succ_cons, List.getD_cons_succ]
      exact ih h2

/-- A nonempty list is its first `n-1` elements plus its last, as multisets. -/
theorem mset_take_last (a : List α) (h : 0 < a.length) :
    (a : Multiset α) = ((a.take (a.length - 1) : List α) : Multiset α)
      + {geti a (a.length - 1)} := by
  conv_lhs => rw [← List.take_append_drop (a.length - 1) a]
  rw [← Multiset.coe_add, drop_last_eq a h]
  rfl

/-!
The implicit binary-tree shape on indices: children of `i` are `2i+1` and
`2i+2`, parent of `j > 0` is `(j-1)/2`.  `Desc r j` says `j` lies in the
subtree rooted at `r`.
-/

inductive Desc : Nat → Nat → Prop where
  | refl (r : Nat) : Desc r r
  | left {r j : Nat} : Desc r j → Desc r (2 * j + 1)
  | right {r j : Nat} : Desc r j → Desc r (2 * j + 2)

theorem Desc.le {r j : Nat} (h : Desc r j) : r ≤ j := by
  induction h with
  | refl => exact Nat.le_refl _
  | left _ ih => omega
  | right _ ih => omega

theorem Desc.trans {a b c : Nat} (h1 : Desc a b) (h2 : Desc b c) : Desc a c := by
  induction h2 with
  | refl => exact h1
  | left _ ih => exact .left ih
  | right _ ih => exact .right ih

theorem Desc.eq_or_child_le {r j : Nat} (h : Desc r j) : j = r ∨ 2 * r + 1 ≤ j := by
  induction h with
  | refl => exact Or.inl rfl
  | left _ ih => omega
  | right _ ih => omega

/-- The parent of a strict descendant is still a descendant. -/
theorem Desc.parent_of_ne {r j : Nat} (h : Desc r j) (hne : j ≠ r) :
    Desc r ((j - 1) / 2) := by
  cases h with
  | refl => exact absurd rfl hne
  | @left i h2 =>
    have he : (2 * i + 1 - 1) / 2 = i := by omega
    rw [he]
    exact h2
  | @right i h2 =>
    have he : (2 * i + 2 - 1) / 2 = i := by omega
    rw [he]
    exact h2

/-- A node's child (any `j > 0` with parent in the subtree) is in the subtree. -/
theorem Desc.child {r p j : Nat} (h : Desc r p) (hj : 0 < j) (hp : (j - 1) / 2 = p) :
    Desc r j := by
  rcases Nat.even_or_odd j with he | ho
  · have hj2 : j = 2 * p + 2 := by
      rcases he with ⟨m, hm⟩
      omega
    exact hj2 ▸ .right h
  · have hj1 : j = 2 * p + 1 := by
      rcases ho with ⟨m, hm⟩
      omega
    exact hj1 ▸ .left h

theorem Desc.self_parent {j : Nat} (hj : 0 < j) : Desc ((j - 1) / 2) j :=
  Desc.child (Desc.refl _) hj rfl

theorem Desc.inv_aux {y k : Nat} (h : Desc y k) :
    ∀ i, (k = 2 * i + 1 ∨ k = 2 * i + 2) → y = k ∨ Desc y i := by
  cases h with
  | refl => exact fun i _ => Or.inl rfl
  | @left j h2 =>
    intro i hi
    have : j = i := by omega
    exact Or.inr (this ▸ h2)
  | @right j h2 =>
    intro i hi
    have : j = i := by omega
    exact Or.inr (this ▸ h2)

/-- Any two ancestors of the same node are comparable in the tree order. -/
theorem Desc.total_anc {x j : Nat} (hx : Desc x j) :
    ∀ {y : Nat}, Desc y j → Desc x y ∨ Desc y x := by
  induction hx with
  | refl => exact fun hy => Or.inr hy
  | @left i h ih =>
    intro y hy
    rcases hy.inv_aux i (Or.inl rfl) with he | hd
    · exact Or.inl (he ▸ .left h)
    · exact ih hd
  | @right i h ih =>
    intro y hy
    rcases hy.inv_aux i (Or.inr rfl) with he | hd
    · exact Or.inl (he ▸ .right h)
    · exact ih hd

/-- Subtrees of the two children of a node are disjoint. -/
theorem Desc.sibling_disjoint {h j : Nat}
    (h1 : Desc (2 * h + 1) j) (h2 : Desc (2 * h + 2) j) : False := by
  rcases Desc.total_anc h1 h2 with hd | hd
  · rcases hd.eq_or_child_le with he | hc <;> omega
  · have := hd.le
    omega

/-- A node outside a subtree has its parent outside as well (contrapositive
of `Desc.child`), stated in the convenient direction. -/
theorem Desc.not_desc_parent {r j : Nat} (hj : 0 < j)
    (h : ¬ Desc r j) : ¬ Desc r ((j - 1) / 2) :=
  fun hp => h (Desc.child hp hj rfl)

/-!
Strict-weak-order facts about the comparator, from asymmetry and negative
transitivity alone.
-/

theorem lt_irrefl_of_asym {lt : α → α → Bool}
    (hasym : ∀ x y, lt x y = true → lt y x = false) (x : α) : lt x x = false := by
  cases hx : lt x x with
  | false => rfl
  | true =>
    have h1 := hasym x x hx
    rw [hx] at h1
    simp at h1

theorem lt_trans_of_swo {lt : α → α → Bool}
    (hasym : ∀ x y, lt x y = true → lt y x = false)
    (hneg : ∀ x y z, lt x y = false → lt y z = false → lt x z = false)
    {x y z : α} (h1 : lt x y = true) (h2 : lt y z = true) : lt x z = true := by
  cases hxz : lt x z with
  | true => rfl
  | false =>
    have hzy : lt z y = false := hasym y z h2
    have : lt x y = false := hneg x z y hxz hzy
    rw [this] at h1
    exact absurd h1 (by simp)

/-!
Sift primitives, translated from heap.hpp.
-/

/-- Larger-child selection inside `__down_heap` (heap.hpp:136, 95-98):
`if ((child < length - 1) && (a[child] < a[child+1])) child++;`.
`c0 = 2*hole+1` is the first child. -/
def largerChild (lt : α → α → Bool) (a : List α) (n c0 : Nat) : Nat :=
  if c0 < n - 1 ∧ lt (geti a c0) (geti a (c0 + 1)) = true then c0 + 1 else c0

/-- `__down_heap(first, length, hole, p)` (heap.hpp:128-157): while the hole
has a child inside `[0, n)`, pick the larger child; if it is less than `p`
stop, else move it into the hole and descend; finally store `p`.
The fuel argument bounds the loop; every wrapper passes fuel `≥ n - hole`,
and the fuel-out branch coincides with the loop-exit branch. -/
def downHeapF (lt : α → α → Bool) : Nat → List α → Nat → Nat → α → List α
  | 0, a, _, hole, p => a.set hole p
  | fuel + 1, a, n, hole, p =>
    if 2 * hole + 1 < n then
      let c := largerChild lt a n (2 * hole + 1)
      if lt (geti a c) p = true then a.set hole p
      else downHeapF lt fuel (a.set hole (geti a c)) n c p
    else a.set hole p

def downHeap (lt : α → α → Bool) (a : List α) (n hole : Nat) (p : α) : List α :=
  downHeapF lt n a n hole p

/-- `__up_heap(first, pos, p)` (heap.hpp:59-73): while `pos > 0` and the
parent is less than `p`, move the parent down into `pos` and ascend;
finally store `p`.  Fuel `≥ pos` suffices. -/
def upHeapF (lt : α → α → Bool) : Nat → List α → Nat → α → List α
  | 0, a, pos, p => a.set pos p
  | fuel + 1, a, pos, p =>
    if 0 < pos ∧ lt (geti a ((pos - 1) / 2)) p = true then
      upHeapF lt fuel (a.set pos (geti a ((pos - 1) / 2))) ((pos - 1) / 2) p
    else a.set pos p

def upHeap (lt : α → α → Bool) (a : List α) (pos : Nat) (p : α) : List α :=
  upHeapF lt pos a pos p

theorem largerChild_ge (lt : α → α → Bool) (a : List α) (n c0 : Nat) :
    c0 ≤ largerChild lt a n c0 := by
  unfold largerChild
  split <;> omega

theorem largerChild_le (lt : α → α → Bool) (a : List α) (n c0 : Nat) :
    largerChild lt a n c0 ≤ c0 + 1 := by
  unfold largerChild
  split <;> omega

theorem largerChild_lt_n (lt : α → α → Bool) (a : List α) (n c0 : Nat)
    (h : c0 < n) : largerChild lt a n c0 < n := by
  unfold largerChild
  split <;> omega

theorem downHeapF_length (lt : α → α → Bool) (fuel : Nat) (a : List α)
    (n hole : Nat) (p : α) :
    (downHeapF lt fuel a n hole p).length = a.length := by
  induction fuel generalizing a hole with
  | zero => simp [downHeapF]
  | succ fuel ih =>
    unfold downHeapF
    dsimp only
    split
    · split
      · simp
      · rw [ih]
        simp
    · simp

theorem upHeapF_length (lt : α → α → Bool) (fuel : Nat) (a : List α)
    (pos : Nat) (p : α) :
    (upHeapF lt fuel a pos p).length = a.length := by
  induction fuel generalizing a pos with
  | zero => simp [upHeapF]
  | succ fuel ih =>
    unfold upHeapF
    split
    · rw [ih]
      simp
    · simp

/-- `__down_heap` writes only inside the subtree of `hole`, and only at
indices below `n`. -/
theorem downHeapF_frame (lt : α → α → Bool) (fuel : Nat) (a : List α)
    (n hole : Nat) (p : α) (hn : hole < n) (j : Nat)
    (hj : ¬ Desc hole j ∨ n ≤ j) :
    geti (downHeapF lt fuel a n hole p) j = geti a j := by
  have hne : hole ≠ j := by
    rintro rfl
    rcases hj with hj | hj
    · exact hj (Desc.refl _)
    · omega
  induction fuel generalizing a hole with
  | zero => exact geti_set_ne a hole j p hne
  | succ fuel ih =>
    unfold downHeapF
    dsimp only
    split
    · split
      · exact geti_set_ne a hole j p hne
      · set c := largerChild lt a n (2 * hole + 1) with hc
        have hcn : c < n := largerChild_lt_n lt a n _ (by omega)
        have hdc : Desc hole c := by
          have h1 := largerChild_ge lt a n (2 * hole + 1)
          have h2 := largerChild_le lt a n (2 * hole + 1)
          rw [← hc] at h1 h2
          rcases Nat.lt_or_ge c (2 * hole + 2) with hcly | hcly
          · have : c = 2 * hole + 1 := by omega
            exact this ▸ Desc.left (Desc.refl _)
          · have : c = 2 * hole + 2 := by omega
            exact this ▸ Desc.right (Desc.refl _)
        have hj2 : ¬ Desc c j ∨ n ≤ j := by
          rcases hj with hj | hj
          · exact Or.inl fun hd => hj (hdc.trans hd)
          · exact Or.inr hj
        have hne2 : c ≠ j := by
          rintro rfl
          rcases hj with hj | hj
          · exact hj hdc
          · omega
        rw [ih (a.set hole (geti a c)) c hcn hj2 hne2]
        exact geti_set_ne a hole j _ hne
    · exact geti_set_ne a hole j p hne

/-- `__up_heap` writes only at ancestors of `pos` (in particular at
indices `≤ pos`). -/
theorem upHeapF_frame (lt : α → α → Bool) (fuel : Nat) (a : List α)
    (pos : Nat) (p : α) (j : Nat) (hj : ¬ Desc j pos) :
    geti (upHeapF lt fuel a pos p) j = geti a j := by
  have hne : pos ≠ j := by
    rintro rfl
    exact hj (Desc.refl _)
  induction fuel generalizing a pos with
  | zero => exact geti_set_ne a pos j p hne
  | succ fuel ih =>
    unfold upHeapF
    split
    · rename_i hcond
      have hpos : 0 < pos := hcond.1
      have hdp : Desc ((pos - 1) / 2) pos := Desc.self_parent hpos
      have hj2 : ¬ Desc j ((pos - 1) / 2) := fun hd => hj (hd.trans hdp)
      have hne2 : (pos - 1) / 2 ≠ j := by
        rintro rfl
        exact hj2 (Desc.refl _)
      rw [ih (a.set pos (geti a ((pos - 1) / 2))) ((pos - 1) / 2) hj2 hne2]
      exact geti_set_ne a pos j _ hne
    · exact geti_set_ne a pos j p hne

/-- A strict descendant lies in the subtree of one of the two children. -/
theorem Desc.split {h j : Nat} (hd : Desc h j) (hne : j ≠ h) :
    Desc (2 * h + 1) j ∨ Desc (2 * h + 2) j := by
  induction hd with
  | refl => exact absurd rfl hne
  | @left i hd2 ih =>
    by_cases hie : i = h
    · subst hie
      exact Or.inl (Desc.refl _)
    · rcases ih hie with d | d
      · exact Or.inl (.left d)
      · exact Or.inr (.left d)
  | @right i hd2 ih =>
    by_cases hie : i = h
    · subst hie
      exact Or.inr (Desc.refl _)
    · rcases ih hie with d | d
      · exact Or.inl (.right d)
      · exact Or.inr (.right d)

/-- In a region satisfying the parent-child heap inequalities, the root of a
subtree is not less than any node of the subtree. -/
theorem subtree_dominates (lt : α → α → Bool)
    (hasym : ∀ x y, lt x y = true → lt y x = false)
    (hneg : ∀ x y z, lt x y = false → lt y z = false → lt x z = false)
    (a : List α) (n r : Nat)
    (hp : ∀ j, j < n → Desc r j → j ≠ r →
      lt (geti a ((j - 1) / 2)) (geti a j) = false) :
    ∀ j, Desc r j → j < n → lt (geti a r) (geti a j) = false := by
  intro j hd
  induction hd with
  | refl => exact fun _ => lt_irrefl_of_asym hasym _
  | @left i hd2 ih =>
    intro hj
    have h1 := ih (by omega)
    have h2 := hp (2 * i + 1) hj (Desc.left hd2) (by have := hd2.le; omega)
    rw [show (2 * i + 1 - 1) / 2 = i by omega] at h2
    exact hneg _ _ _ h1 h2
  | @right i hd2 ih =>
    intro hj
    have h1 := ih (by omega)
    have h2 := hp (2 * i + 2) hj (Desc.right hd2) (by have := hd2.le; omega)
    rw [show (2 * i + 2 - 1) / 2 = i by omega] at h2
    exact hneg _ _ _ h1 h2

/-- The selected child is in the subtree of the hole and strictly below it. -/
theorem largerChild_desc (lt : α → α → Bool) (a : List α) (n hole : Nat) :
    Desc hole (largerChild lt a n (2 * hole + 1)) := by
  unfold largerChild
  split
  · exact .right (.refl _)
  · exact .left (.refl _)

theorem largerChild_parent (lt : α → α → Bool) (a : List α) (n hole : Nat) :
    (largerChild lt a n (2 * hole + 1) - 1) / 2 = hole := by
  unfold largerChild
  split <;> omega

/-- The selected child is not less than its sibling (when the sibling is in
range). -/
theorem largerChild_not_lt_sibling (lt : α → α → Bool)
    (hasym : ∀ x y, lt x y = true → lt y x = false)
    (a : List α) (n c0 : Nat) (k : Nat) (hk : k = c0 ∨ k = c0 + 1)
    (hkn : k < n) (hne : k ≠ largerChild lt a n c0) :
    lt (geti a (largerChild lt a n c0)) (geti a k) = false := by
  by_cases hcond : c0 < n - 1 ∧ lt (geti a c0) (geti a (c0 + 1)) = true
  · rw [largerChild, if_pos hcond] at hne ⊢
    have hk0 : k = c0 := by
      rcases hk with h | h
      · exact h
      · omega
    subst hk0
    exact hasym _ _ hcond.2
  · rw [largerChild, if_neg hcond] at hne ⊢
    have hk1 : k = c0 + 1 := by
      rcases hk with h | h
      · omega
      · exact h
    subst hk1
    cases hlt : lt (geti a c0) (geti a (c0 + 1)) with
    | false => rfl
    | true => exact absurd ⟨by omega, hlt⟩ hcond

/-- When `__down_heap` breaks because the larger child is less than `p`,
`p` is not less than either child. -/
theorem break_not_lt_children (lt : α → α → Bool)
    (hasym : ∀ x y, lt x y = true → lt y x = false)
    (hneg : ∀ x y z, lt x y = false → lt y z = false → lt x z = false)
    (a : List α) (n c0 : Nat) (p : α)
    (hbr : lt (geti a (largerChild lt a n c0)) p = true)
    (k : Nat) (hk : k = c0 ∨ k = c0 + 1) (hkn : k < n) :
    lt p (geti a k) = false := by
  by_cases hke : k = largerChild lt a n c0
  · exact hke ▸ hasym _ _ hbr
  · have hsib := largerChild_not_lt_sibling lt hasym a n c0 k hk hkn hke
    cases hlt : lt p (geti a k) with
    | false => rfl
    | true =>
      have := lt_trans_of_swo hasym hneg hbr hlt
      rw [hsib] at this
      exact absurd this (by simp)

/-- The value left in the hole slot by `__down_heap` is dominated by
anything that dominates both `p` and the strict subtree of the hole. -/
theorem downHeapF_top (lt : α → α → Bool) (fuel : Nat) (a : List α)
    (n hole : Nat) (p : α) (hfuel : n ≤ fuel + hole) (hn : hole < n)
    (hlen : n ≤ a.length) (x : α) (hxp : lt x p = false)
    (hxs : ∀ k, k < n → Desc hole k → k ≠ hole → lt x (geti a k) = false) :
    lt x (geti (downHeapF lt fuel a n hole p) hole) = false := by
  cases fuel with
  | zero =>
    rw [show downHeapF lt 0 a n hole p = a.set hole p from rfl,
      geti_set_self a hole p (by omega)]
    exact hxp
  | succ fuel =>
    unfold downHeapF
    dsimp only
    split
    · rename_i hguard
      set c := largerChild lt a n (2 * hole + 1) with hc
      have hcn : c < n := largerChild_lt_n lt a n _ hguard
      have hdc : Desc hole c := largerChild_desc lt a n hole
      have hcgt : hole < c := by
        have := largerChild_ge lt a n (2 * hole + 1)
        omega
      split
      · rw [geti_set_self a hole p (by omega)]
        exact hxp
      · rw [downHeapF_frame lt fuel _ n c p hcn hole
          (Or.inl fun hd => by have := hd.le; omega)]
        rw [geti_set_self a hole _ (by omega)]
        exact hxs c hcn hdc (by omega)
    · rw [geti_set_self a hole p (by omega)]
      exact hxp

/-- `__down_heap` exchanges `p` for the value in the hole, as multisets. -/
theorem downHeapF_mset (lt : α → α → Bool) (fuel : Nat) :
    ∀ (a : List α) (n hole : Nat) (p : α), hole < n → n ≤ a.length →
    ((downHeapF lt fuel a n hole p : List α) : Multiset α) + {geti a hole}
      = (a : Multiset α) + {p} := by
  induction fuel with
  | zero =>
    intro a n hole p hn hlen
    exact mset_set a hole p (by omega)
  | succ fuel ih =>
    intro a n hole p hn hlen
    unfold downHeapF
    dsimp only
    split
    · rename_i hguard
      set c := largerChild lt a n (2 * hole + 1) with hc
      have hcn : c < n := largerChild_lt_n lt a n _ hguard
      have hcgt : hole < c := by
        have := largerChild_ge lt a n (2 * hole + 1)
        omega
      split
      · exact mset_set a hole p (by omega)
      · have h1 := ih (a.set hole (geti a c)) n c p hcn
          (by rw [List.length_set]; exact hlen)
        rw [geti_set_ne a hole c _ (by omega)] at h1
        have h2 := mset_set a hole (geti a c) (by omega)
        have key : ((downHeapF lt fuel (a.set hole (geti a c)) n c p : List α) : Multiset α)
              + {geti a hole} + {geti a c}
            = (a : Multiset α) + {p} + {geti a c} := by
          rw [add_right_comm, h1, add_right_comm, h2, add_right_comm]
        exact add_right_cancel key
    · exact mset_set a hole p (by omega)

/-- Heap restoration by `__down_heap`: if the strict interior of the
subtree of `hole` satisfies the heap inequalities, then after the sift the
whole subtree of `hole` does (with any sifted value `p`). -/
theorem downHeapF_heap (lt : α → α → Bool)
    (hasym : ∀ x y, lt x y = true → lt y x = false)
    (hneg : ∀ x y z, lt x y = false → lt y z = false → lt x z = false)
    (fuel : Nat) :
    ∀ (a : List α) (n hole : Nat) (p : α), n ≤ fuel + hole → n ≤ a.length →
    (∀ j, j < n → Desc hole j → j ≠ hole → (j - 1) / 2 ≠ hole →
      lt (geti a ((j - 1) / 2)) (geti a j) = false) →
    ∀ j, j < n → Desc hole j → j ≠ hole →
      lt (geti (downHeapF lt fuel a n hole p) ((j - 1) / 2))
        (geti (downHeapF lt fuel a n hole p) j) = false := by
  induction fuel with
  | zero =>
    intro a n hole p hfuel hlen hsub j hj hdj hne
    have := hdj.le
    omega
  | succ fuel ih =>
    intro a n hole p hfuel hlen hsub j hj hdj hne
    unfold downHeapF
    dsimp only
    split
    · rename_i hguard
      set c := largerChild lt a n (2 * hole + 1) with hc
      have hcn : c < n := largerChild_lt_n lt a n _ hguard
      have hdc : Desc hole c := largerChild_desc lt a n hole
      have hcpar : (c - 1) / 2 = hole := largerChild_parent lt a n hole
      have hcsh : c = 2 * hole + 1 ∨ c = 2 * hole + 2 := by
        have h1 := largerChild_ge lt a n (2 * hole + 1)
        have h2 := largerChild_le lt a n (2 * hole + 1)
        omega
      have hcgt : hole < c := by omega
      split
      · -- break: result is a.set hole p
        rename_i hbr
        by_cases hpj : (j - 1) / 2 = hole
        · -- j is a direct child of hole
          have hjch : j = 2 * hole + 1 ∨ j = 2 * hole + 2 := by
            rcases Nat.even_or_odd j with he | ho
            · rcases he with ⟨m, hm⟩
              right
              omega
            · rcases ho with ⟨m, hm⟩
              left
              omega
          rw [hpj, geti_set_self a hole p (by omega),
            geti_set_ne a hole j p (by omega)]
          exact break_not_lt_children lt hasym hneg a n (2 * hole + 1) p hbr j
            (by omega) hj
        · rw [geti_set_ne a hole _ p (fun h => hpj h.symm),
            geti_set_ne a hole j p (by omega)]
          exact hsub j hj hdj hne (by omega)
      · -- move: recurse at c on a.set hole (geti a c)
        rename_i hmv
        have hmv2 : lt (geti a c) p = false := by
          cases hlt : lt (geti a c) p with
          | false => rfl
          | true => exact absurd hlt hmv
        set a1 := a.set hole (geti a c) with ha1
        have hlen1 : n ≤ a1.length := by
          rw [ha1, List.length_set]
          exact hlen
        have hsub1 : ∀ k, k < n → Desc c k → k ≠ c → (k - 1) / 2 ≠ c →
            lt (geti a1 ((k - 1) / 2)) (geti a1 k) = false := by
          intro k hk hdk hkne hkpar
          have hkgt : c < k := by
            rcases hdk.eq_or_child_le with h | h <;> omega
          have hparc : Desc c ((k - 1) / 2) := hdk.parent_of_ne hkne
          have hpargt : hole < (k - 1) / 2 := by
            have := hparc.le
            omega
          rw [ha1, geti_set_ne a hole _ _ (by omega),
            geti_set_ne a hole k _ (by omega)]
          exact hsub k hk (hdc.trans hdk) (by omega) (by omega)
        -- pairs strictly inside the subtree of c: by induction hypothesis
        have hrec := ih a1 n c p (by omega) hlen1 hsub1
        have hbhole : geti (downHeapF lt fuel a1 n c p) hole = geti a c := by
          rw [downHeapF_frame lt fuel a1 n c p hcn hole
            (Or.inl fun hd => by have := hd.le; omega)]
          rw [ha1, geti_set_self a hole _ (by omega)]
        by_cases hjc : Desc c j
        · by_cases hjec : j = c
          · -- the pair (hole, c)
            subst hjec
            rw [hcpar, hbhole]
            exact downHeapF_top lt fuel a1 n c p (by omega) hcn hlen1
              (geti a c) hmv2
              (fun k hk hdk hkne => by
                have hkgt : c < k := by
                  rcases hdk.eq_or_child_le with h | h <;> omega
                rw [ha1, geti_set_ne a hole k _ (by omega)]
                exact subtree_dominates lt hasym hneg a n c
                  (fun m hm hdm hmne => by
                    have hmgt : c < m := by
                      rcases hdm.eq_or_child_le with h | h <;> omega
                    have hparc : Desc c ((m - 1) / 2) := hdm.parent_of_ne hmne
                    have hpargt : hole < (m - 1) / 2 := by
                      have := hparc.le
                      omega
                    exact hsub m hm (hdc.trans hdm) (by omega) (by omega))
                  k hdk hk)
          · exact hrec j hj hjc hjec
        · -- j is in the sibling subtree (or is the sibling itself)
          obtain ⟨c2, hc2ch, hc2ne, hd2j⟩ :
              ∃ c2, (c2 = 2 * hole + 1 ∨ c2 = 2 * hole + 2) ∧ c2 ≠ c
                ∧ Desc c2 j := by
            rcases hdj.split hne with hd1 | hd1
            · rcases hcsh with hc1 | hc1
              · exact absurd (hc1 ▸ hd1) hjc
              · exact ⟨2 * hole + 1, Or.inl rfl, by omega, hd1⟩
            · rcases hcsh with hc1 | hc1
              · exact ⟨2 * hole + 2, Or.inr rfl, by omega, hd1⟩
              · exact absurd (hc1 ▸ hd1) hjc
          have hc2gt : hole < c2 := by omega
          have hndcc2 : ¬ Desc c c2 := by
            intro hdcc2
            rcases hcsh with hc1 | hc1 <;> rcases hc2ch with h2 | h2
            · omega
            · rw [hc1] at hdcc2
              refine Desc.sibling_disjoint hdcc2 ?_
              rw [h2]
              exact Desc.refl _
            · rw [hc1] at hdcc2
              refine Desc.sibling_disjoint ?_ hdcc2
              rw [h2]
              exact Desc.refl _
            · omega
          by_cases hjc2 : j = c2
          · -- the pair (hole, sibling)
            subst hjc2
            have hjpar : (j - 1) / 2 = hole := by
              rcases hc2ch with h2 | h2 <;> omega
            rw [hjpar, hbhole,
              downHeapF_frame lt fuel a1 n c p hcn j (Or.inl hndcc2),
              ha1, geti_set_ne a hole j _ (by omega)]
            exact largerChild_not_lt_sibling lt hasym a n (2 * hole + 1) j
              (by omega) hj (by omega)
          · -- strictly inside the sibling subtree: untouched by the sift
            have hjgt : c2 < j := by
              rcases hd2j.eq_or_child_le with h2 | h2 <;> omega
            have hparc2 : Desc c2 ((j - 1) / 2) := hd2j.parent_of_ne hjc2
            have hpargt : hole < (j - 1) / 2 := by
              have := hparc2.le
              omega
            have hndcj : ¬ Desc c ((j - 1) / 2) := by
              intro hdc
              exact hjc (hdc.child (by omega) rfl)
            rw [downHeapF_frame lt fuel a1 n c p hcn j (Or.inl hjc),
              downHeapF_frame lt fuel a1 n c p hcn _ (Or.inl hndcj),
              ha1, geti_set_ne a hole j _ (by omega),
              geti_set_ne a hole _ _ (by omega)]
            exact hsub j hj hdj hne (by omega)
    · -- no children: j strictly inside the subtree would be ≥ 2*hole+1 ≥ n
      rename_i hguard
      rcases hdj.eq_or_child_le with h | h
      · exact absurd h hne
      · omega

/-- The terminal write of `__up_heap` (`a[child] = p`) yields a heap, given
that all other pairs are fine, `p` dominates the children of the slot, and
the loop-exit condition holds. -/
theorem upHeap_base_heap (lt : α → α → Bool) (a : List α) (pos : Nat) (p : α)
    (n : Nat) (hn : pos < n) (hlen : n ≤ a.length)
    (H1 : ∀ j, j < n → 0 < j → j ≠ pos → (j - 1) / 2 ≠ pos →
      lt (geti a ((j - 1) / 2)) (geti a j) = false)
    (H2 : ∀ c, c < n → 0 < c → (c - 1) / 2 = pos → lt p (geti a c) = false)
    (hstop : 0 < pos → lt (geti a ((pos - 1) / 2)) p = false) :
    ∀ j, j < n → 0 < j →
      lt (geti (a.set pos p) ((j - 1) / 2)) (geti (a.set pos p) j) = false := by
  intro j hj hj0
  by_cases hje : j = pos
  · subst hje
    have hpos : 0 < j := hj0
    rw [geti_set_ne a j ((j - 1) / 2) p (by omega),
      geti_set_self a j p (by omega)]
    exact hstop hpos
  · by_cases hpe : (j - 1) / 2 = pos
    · rw [hpe, geti_set_self a pos p (by omega),
        geti_set_ne a pos j p (fun h => hje h.symm)]
      exact H2 j hj hj0 hpe
    · rw [geti_set_ne a pos ((j - 1) / 2) p (fun h => hpe h.symm),
        geti_set_ne a pos j p (fun h => hje h.symm)]
      exact H1 j hj hj0 hje hpe

/-- Heap restoration by `__up_heap`: inserting `p` at `pos` by bubbling up
yields a heap on `[0, n)`, provided all pairs not involving `pos` are fine,
`p` dominates the children of `pos`, and the parent of `pos` dominates the
children of `pos`. -/
theorem upHeapF_heap (lt : α → α → Bool)
    (hasym : ∀ x y, lt x y = true → lt y x = false)
    (hneg : ∀ x y z, lt x y = false → lt y z = false → lt x z = false)
    (fuel : Nat) :
    ∀ (a : List α) (pos : Nat) (p : α) (n : Nat),
    pos ≤ fuel → pos < n → n ≤ a.length →
    (∀ j, j < n → 0 < j → j ≠ pos → (j - 1) / 2 ≠ pos →
      lt (geti a ((j - 1) / 2)) (geti a j) = false) →
    (∀ c, c < n → 0 < c → (c - 1) / 2 = pos → lt p (geti a c) = false) →
    (∀ c, c < n → 0 < c → (c - 1) / 2 = pos → 0 < pos →
      lt (geti a ((pos - 1) / 2)) (geti a c) = false) →
    ∀ j, j < n → 0 < j →
      lt (geti (upHeapF lt fuel a pos p) ((j - 1) / 2))
        (geti (upHeapF lt fuel a pos p) j) = false := by
  induction fuel with
  | zero =>
    intro a pos p n hfuel hn hlen H1 H2 H3
    have hpos0 : pos = 0 := by omega
    subst hpos0
    exact upHeap_base_heap lt a 0 p n hn hlen H1 H2 (by omega)
  | succ fuel ih =>
    intro a pos p n hfuel hn hlen H1 H2 H3
    unfold upHeapF
    split
    · rename_i hcond
      obtain ⟨hpos, hlt⟩ := hcond
      set par := (pos - 1) / 2 with hpar
      have hparlt : par < pos := by
        have := Nat.div_le_self (pos - 1) 2
        omega
      set a1 := a.set pos (geti a par) with ha1
      have hg1 : geti a1 pos = geti a par := geti_set_self a pos _ (by omega)
      have hgne : ∀ k, k ≠ pos → geti a1 k = geti a k := by
        intro k hk
        exact geti_set_ne a pos k _ (fun h => hk h.symm)
      apply ih a1 par p n (by omega) (by omega)
        (by rw [ha1, List.length_set]; exact hlen)
      · -- pairs not involving par, in a1
        intro j hj hj0 hjne hjpar
        by_cases hpej : (j - 1) / 2 = pos
        · -- j is a child of pos
          have hjgt : pos < j := by
            have h2 := Nat.div_le_self (j - 1) 2
            omega
          rw [hpej, hg1, hgne j (by omega)]
          exact H3 j hj hj0 hpej hpos
        · by_cases hje : j = pos
          · subst hje
            exact absurd hpar.symm hjpar
          · rw [hgne j hje, hgne ((j - 1) / 2) (fun h => hpej h)]
            exact H1 j hj hj0 hje hpej
      · -- p dominates the children of par in a1
        intro c hc hc0 hcpar
        by_cases hce : c = pos
        · subst hce
          rw [hg1]
          exact hasym _ _ hlt
        · rw [hgne c hce]
          have hW : lt (geti a par) (geti a c) = false := by
            have h0 := H1 c hc hc0 hce (by omega)
            rwa [hcpar] at h0
          cases hpc : lt p (geti a c) with
          | false => rfl
          | true =>
            have := lt_trans_of_swo hasym hneg hlt hpc
            rw [hW] at this
            exact absurd this (by simp)
      · -- the parent of par dominates the children of par in a1
        intro c hc hc0 hcpar hpar0
        have hgplt : (par - 1) / 2 < par := by
          have := Nat.div_le_self (par - 1) 2
          omega
        rw [hgne ((par - 1) / 2) (by omega)]
        have hWp : lt (geti a ((par - 1) / 2)) (geti a par) = false :=
          H1 par (by omega) hpar0 (by omega) (by omega)
        by_cases hce : c = pos
        · subst hce
          rw [hg1]
          exact hWp
        · rw [hgne c hce]
          have hWc : lt (geti a par) (geti a c) = false := by
            have h0 := H1 c hc hc0 hce (by omega)
            rwa [hcpar] at h0
          exact hneg _ _ _ hWp hWc
    · rename_i hcond
      have hstop : 0 < pos → lt (geti a ((pos - 1) / 2)) p = false := by
        intro hpos
        cases hlt : lt (geti a ((pos - 1) / 2)) p with
        | false => rfl
        | true => exact absurd ⟨hpos, hlt⟩ hcond
      exact upHeap_base_heap lt a pos p n hn hlen H1 H2 hstop

/-- `__up_heap` exchanges `p` for the value at `pos`, as multisets. -/
theorem upHeapF_mset (lt : α → α → Bool) (fuel : Nat) :
    ∀ (a : List α) (pos : Nat) (p : α), pos < a.length →
    ((upHeapF lt fuel a pos p : List α) : Multiset α) + {geti a pos}
      = (a : Multiset α) + {p} := by
  induction fuel with
  | zero =>
    intro a pos p hn
    exact mset_set a pos p hn
  | succ fuel ih =>
    intro a pos p hn
    unfold upHeapF
    split
    · rename_i hcond
      obtain ⟨hpos, hlt⟩ := hcond
      have hparlt : (pos - 1) / 2 < pos := by
        have := Nat.div_le_self (pos - 1) 2
        omega
      have h1 := ih (a.set pos (geti a ((pos - 1) / 2))) ((pos - 1) / 2) p
        (by rw [List.length_set]; omega)
      rw [geti_set_ne a pos ((pos - 1) / 2) _ (by omega)] at h1
      have h2 := mset_set a pos (geti a ((pos - 1) / 2)) hn
      have key : ((upHeapF lt fuel (a.set pos (geti a ((pos - 1) / 2)))
              ((pos - 1) / 2) p : List α) : Multiset α)
            + {geti a pos} + {geti a ((pos - 1) / 2)}
          = (a : Multiset α) + {p} + {geti a ((pos - 1) / 2)} := by
        rw [add_right_comm, h1, add_right_comm, h2, add_right_comm]
      exact add_right_cancel key
    · exact mset_set a pos p hn

/-!
Public operations of the library (non-observer variants), translated from
heap.hpp.  Throughout, `n = a.length` plays the role of `last - first`.
-/

/-- Heap invariant H on the prefix `[0, n)`:
no element is greater than its parent (spec section 3). -/
def heapUpTo (lt : α → α → Bool) (a : List α) (n : Nat) : Prop :=
  ∀ j, j < n → 0 < j → lt (geti a ((j - 1) / 2)) (geti a j) = false

instance heapUpTo_decidable (lt : α → α → Bool) (a : List α) (n : Nat) :
    Decidable (heapUpTo lt a n) :=
  decidable_of_iff
    (∀ j, j < n → 0 < j → lt (geti a ((j - 1) / 2)) (geti a j) = false)
    Iff.rfl

/-- `mas::heap::make_heap(first, last)` (heap.hpp:208-216): for
`parent = len/2; parent-- > 0;` call `__down_heap(first, len, parent,
move(a[parent]))`. -/
def makeHeapAux (lt : α → α → Bool) (n : Nat) : List α → Nat → List α
  | a, 0 => a
  | a, k + 1 => makeHeapAux lt n (downHeap lt a n k (geti a k)) k

def makeHeap (lt : α → α → Bool) (a : List α) : List α :=
  makeHeapAux lt a.length a (a.length / 2)

/-- `mas::heap::push_heap(first, last)` (heap.hpp:247-258): if
`lastPos > 0` and the parent of the tail is less than the tail, bubble the
tail up, else do nothing. -/
def pushHeap (lt : α → α → Bool) (a : List α) : List α :=
  if 0 < a.length - 1
      ∧ lt (geti a ((a.length - 1 - 1) / 2)) (geti a (a.length - 1)) = true then
    upHeap lt a (a.length - 1) (geti a (a.length - 1))
  else a

/-- `mas::heap::pop_heap(first, last)` (heap.hpp:284-291) via `__pop_heap`
(heap.hpp:172-181): when `last - first > 1`, save the tail as `value`, move
`a[0]` into the tail slot, and sift `value` down through `[0, n-1)`. -/
def popHeap (lt : α → α → Bool) (a : List α) : List α :=
  if 1 < a.length then
    downHeap lt (a.set (a.length - 1) (geti a 0)) (a.length - 1) 0
      (geti a (a.length - 1))
  else a

/-- `mas::heap::sort_heap(first, last)` (heap.hpp:317-323): pop into a
shrinking suffix while more than one element remains.  The second argument
is the current `last - first`. -/
def sortHeapAux (lt : α → α → Bool) : List α → Nat → List α
  | a, 0 => a
  | a, 1 => a
  | a, m + 2 =>
    sortHeapAux lt
      (downHeap lt (a.set (m + 1) (geti a 0)) (m + 1) 0 (geti a (m + 1)))
      (m + 1)

def sortHeap (lt : α → α → Bool) (a : List α) : List α :=
  sortHeapAux lt a a.length

/-- `mas::heap::update_heap(first, last, pos)` (heap.hpp:495-509): compare
`a[pos]` with its parent; bubble up if the parent is smaller, else sift
down. -/
def updateHeap (lt : α → α → Bool) (a : List α) (k : Nat) : List α :=
  if 0 < k ∧ lt (geti a ((k - 1) / 2)) (geti a k) = true then
    upHeap lt a k (geti a k)
  else downHeap lt a a.length k (geti a k)

/-- Positional `mas::heap::pop_heap(first, last, pos)` (heap.hpp:537-546)
via `__pop_heap_pos` (heap.hpp:440-461): when `last - pos > 1`, save the
tail as `value`, move `a[pos]` into the tail slot, then either bubble
`value` up from `pos` (if the parent of `pos` is less than `value`) or sift
it down through `[0, n-1)`. -/
def popHeapPos (lt : α → α → Bool) (a : List α) (k : Nat) : List α :=
  if 1 < a.length - k then
    if 0 < k
        ∧ lt (geti (a.set (a.length - 1) (geti a k)) ((k - 1) / 2))
            (geti a (a.length - 1)) = true then
      upHeap lt (a.set (a.length - 1) (geti a k)) k (geti a (a.length - 1))
    else
      downHeap lt (a.set (a.length - 1) (geti a k)) (a.length - 1) k
        (geti a (a.length - 1))
  else a

/-- `mas::heap::is_heap_until(first, last)` (heap.hpp:363-382): scan
parent-child pairs; `child` steps by two per parent.  Fuel bounds the loop;
`n` fuel is enough since `child` grows by 2 each iteration. -/
def ihuF (lt : α → α → Bool) : Nat → List α → Nat → Nat → Nat → Nat
  | 0, _, n, _, _ => n
  | fuel + 1, a, n, parent, child =>
    if child < n then
      if lt (geti a parent) (geti a child) = true then child
      else if child + 1 < n ∧ lt (geti a parent) (geti a (child + 1)) = true then
        child + 1
      else ihuF lt fuel a n (parent + 1) (child + 2)
    else n

def isHeapUntil (lt : α → α → Bool) (a : List α) : Nat :=
  ihuF lt a.length a a.length 0 1

/-- `mas::heap::is_heap(first, last)` (heap.hpp:407-410):
`is_heap_until(first, last) == last`. -/
def isHeapB (lt : α → α → Bool) (a : List α) : Bool :=
  isHeapUntil lt a == a.length

theorem ihuF_correct (lt : α → α → Bool) (fuel : Nat) :
    ∀ (a : List α) (n parent child : Nat), n ≤ child + 2 * fuel →
    child = 2 * parent + 1 →
    (ihuF lt fuel a n parent child = n
      ↔ ∀ j, j < n → child ≤ j → lt (geti a ((j - 1) / 2)) (geti a j) = false) := by
  induction fuel with
  | zero =>
    intro a n parent child hfuel hch
    simp only [ihuF]
    constructor
    · intro _ j hj hcj
      omega
    · intro _
      trivial
  | succ fuel ih =>
    intro a n parent child hfuel hch
    unfold ihuF
    split
    · rename_i hcn
      have hp1 : (child - 1) / 2 = parent := by omega
      have hp2 : (child + 1 - 1) / 2 = parent := by omega
      split
      · rename_i hviol
        constructor
        · intro he
          omega
        · intro hall
          have := hall child hcn (Nat.le_refl _)
          rw [hp1, hviol] at this
          exact absurd this (by simp)
      · rename_i hok1
        split
        · rename_i hviol2
          constructor
          · intro he
            omega
          · intro hall
            have := hall (child + 1) hviol2.1 (by omega)
            rw [hp2, hviol2.2] at this
            exact absurd this (by simp)
        · rename_i hok2
          rw [ih a n (parent + 1) (child + 2) (by omega) (by omega)]
          constructor
          · intro hall j hj hcj
            rcases Nat.lt_or_ge j (child + 2) with hlt | hge
            · rcases Nat.eq_or_lt_of_le hcj with he | hlt2
              · rw [← he, hp1]
                cases hv : lt (geti a parent) (geti a child) with
                | false => rfl
                | true => exact absurd hv hok1
              · have hje : j = child + 1 := by omega
                subst hje
                rw [hp2]
                cases hv : lt (geti a parent) (geti a (child + 1)) with
                | false => rfl
                | true => exact absurd ⟨hj, hv⟩ hok2
            · exact hall j hj hge
          · intro hall j hj hcj
            exact hall j hj (by omega)
    · constructor
      · intro _ j hj hcj
        omega
      · intro _
        rfl

/-- `is_heap` decides the heap invariant H. -/
theorem isHeapB_iff (lt : α → α → Bool) (a : List α) :
    isHeapB lt a = true ↔ heapUpTo lt a a.length := by
  unfold isHeapB isHeapUntil heapUpTo
  rw [beq_iff_eq,
    ihuF_correct lt a.length a a.length 0 1 (by omega) (by omega)]
  constructor
  · intro h j hj hj0
    exact h j hj (by omega)
  · intro h j hj hj1
    exact h j hj (by omega)

/-- Invariant of the `make_heap` sweep: after all parents `≥ k` have been
sifted down, every pair whose parent index is `≥ k` satisfies H; running
the remaining iterations yields a full heap and preserves the multiset. -/
theorem makeHeapAux_correct (lt : α → α → Bool)
    (hasym : ∀ x y, lt x y = true → lt y x = false)
    (hneg : ∀ x y z, lt x y = false → lt y z = false → lt x z = false) :
    ∀ (k : Nat) (a : List α) (n : Nat), 2 * k ≤ n → n ≤ a.length →
    (∀ j, j < n → 0 < j → k ≤ (j - 1) / 2 →
      lt (geti a ((j - 1) / 2)) (geti a j) = false) →
    heapUpTo lt (makeHeapAux lt n a k) n
      ∧ ((makeHeapAux lt n a k : List α) : Multiset α) = (a : Multiset α)
      ∧ (makeHeapAux lt n a k).length = a.length := by
  intro k
  induction k with
  | zero =>
    intro a n hk hlen hinv
    exact ⟨fun j hj hj0 => hinv j hj hj0 (Nat.zero_le _), rfl, rfl⟩
  | succ k ih =>
    intro a n hk hlen hinv
    have hkn : k < n := by omega
    set b := downHeap lt a n k (geti a k) with hb
    have hlenb : b.length = a.length := downHeapF_length lt n a n k _
    have hsub : ∀ j, j < n → Desc k j → j ≠ k → (j - 1) / 2 ≠ k →
        lt (geti a ((j - 1) / 2)) (geti a j) = false := by
      intro j hj hdj hne hpne
      have hjge : 2 * k + 1 ≤ j := by
        rcases hdj.eq_or_child_le with h | h <;> omega
      have hpd : Desc k ((j - 1) / 2) := hdj.parent_of_ne hne
      have := hpd.le
      exact hinv j hj (by omega) (by omega)
    have hd2 := downHeapF_heap lt hasym hneg n a n k (geti a k) (by omega)
      hlen hsub
    have hinv2 : ∀ j, j < n → 0 < j → k ≤ (j - 1) / 2 →
        lt (geti b ((j - 1) / 2)) (geti b j) = false := by
      intro j hj hj0 hkp
      by_cases hdj : Desc k j
      · have hne : j ≠ k := by
          rintro rfl
          omega
        exact hd2 j hj hdj hne
      · have hpnd : ¬ Desc k ((j - 1) / 2) := Desc.not_desc_parent hj0 hdj
        have hpne : (j - 1) / 2 ≠ k := by
          rintro he
          exact hdj (Desc.child (he ▸ Desc.refl k) hj0 rfl)
        rw [hb]
        unfold downHeap
        rw [downHeapF_frame lt n a n k _ hkn j (Or.inl hdj),
          downHeapF_frame lt n a n k _ hkn _ (Or.inl hpnd)]
        exact hinv j hj hj0 (by omega)
    have hmb : ((b : List α) : Multiset α) = (a : Multiset α) := by
      have h1 := downHeapF_mset lt n a n k (geti a k) hkn hlen
      exact add_right_cancel h1
    have hstep :
        makeHeapAux lt n a (k + 1) = makeHeapAux lt n b k := rfl
    obtain ⟨hh, hm, hl⟩ := ih b n (by omega) (by omega) hinv2
    refine ⟨hstep ▸ hh, ?_, ?_⟩
    · rw [hstep, hm, hmb]
    · rw [hstep, hl, hlenb]

/-- `make_heap` establishes H and permutes the sequence. -/
theorem makeHeap_correct (lt : α → α → Bool)
    (hasym : ∀ x y, lt x y = true → lt y x = false)
    (hneg : ∀ x y z, lt x y = false → lt y z = false → lt x z = false)
    (a : List α) :
    heapUpTo lt (makeHeap lt a) (makeHeap lt a).length
      ∧ ((makeHeap lt a : List α) : Multiset α) = (a : Multiset α)
      ∧ (makeHeap lt a).length = a.length := by
  have hinit : ∀ j, j < a.length → 0 < j → a.length / 2 ≤ (j - 1) / 2 →
      lt (geti a ((j - 1) / 2)) (geti a j) = false := by
    intro j hj hj0 hge
    have h1 := Nat.div_add_mod (j - 1) 2
    have h2 := Nat.div_add_mod a.length 2
    have h3 := Nat.mod_lt (j - 1) (show 0 < 2 by omega)
    have h4 := Nat.mod_lt a.length (show 0 < 2 by omega)
    omega
  obtain ⟨hh, hm, hl⟩ := makeHeapAux_correct lt hasym hneg (a.length / 2) a
    a.length (by omega) (Nat.le_refl _) hinit
  refine ⟨?_, hm, hl⟩
  rw [show makeHeap lt a = makeHeapAux lt a.length a (a.length / 2) from rfl,
    hl]
  exact hh

/-- In a heap, every node dominates its whole subtree. -/
theorem heap_dominates (lt : α → α → Bool)
    (hasym : ∀ x y, lt x y = true → lt y x = false)
    (hneg : ∀ x y z, lt x y = false → lt y z = false → lt x z = false)
    (a : List α) (n : Nat) (hheap : heapUpTo lt a n) (r : Nat) :
    ∀ j, Desc r j → j < n → lt (geti a r) (geti a j) = false :=
  subtree_dominates lt hasym hneg a n r
    (fun j hj hdj hjne => by
      have : 2 * r + 1 ≤ j := by
        rcases hdj.eq_or_child_le with h | h <;> omega
      exact hheap j hj (by omega))

/-- Correctness of the positional `pop_heap`: the popped element lands in
the last slot, the prefix is a heap again, and the prefix multiset is the
original multiset minus the popped element. -/
theorem popHeapPos_correct (lt : α → α → Bool)
    (hasym : ∀ x y, lt x y = true → lt y x = false)
    (hneg : ∀ x y z, lt x y = false → lt y z = false → lt x z = false)
    (a : List α) (k : Nat) (hheap : heapUpTo lt a a.length)
    (hk : k < a.length) :
    (popHeapPos lt a k).length = a.length
      ∧ geti (popHeapPos lt a k) (a.length - 1) = geti a k
      ∧ heapUpTo lt (popHeapPos lt a k) (a.length - 1)
      ∧ (((popHeapPos lt a k).take (a.length - 1) : List α) : Multiset α)
          + {geti a k} = (a : Multiset α) := by
  set n := a.length with hn
  have hdom := heap_dominates lt hasym hneg a n hheap
  by_cases hguard : 1 < n - k
  · -- k + 1 < n: the element is moved out and the tail re-inserted
    have hk1 : k + 1 < n := by omega
    set value := geti a (n - 1) with hv
    set a1 := a.set (n - 1) (geti a k) with ha1
    have hlen1 : a1.length = n := by rw [ha1, List.length_set]
    have ha1k : ∀ j, j ≠ n - 1 → geti a1 j = geti a j := by
      intro j hj
      exact geti_set_ne a (n - 1) j _ (fun h => hj h.symm)
    have ha1last : geti a1 (n - 1) = geti a k :=
      geti_set_self a (n - 1) _ (by omega)
    have hmset1 : (a1 : Multiset α) + {geti a (n - 1)}
        = (a : Multiset α) + {geti a k} := mset_set a (n - 1) _ (by omega)
    -- common final assembly, given the sifted result
    have hfinish : ∀ b : List α, b.length = n → geti b (n - 1) = geti a k →
        heapUpTo lt b (n - 1) →
        (b : Multiset α) + {geti a k} = (a : Multiset α) + {geti a k} →
        (popHeapPos lt a k = b →
          (popHeapPos lt a k).length = a.length
            ∧ geti (popHeapPos lt a k) (a.length - 1) = geti a k
            ∧ heapUpTo lt (popHeapPos lt a k) (a.length - 1)
            ∧ (((popHeapPos lt a k).take (a.length - 1) : List α) : Multiset α)
                + {geti a k} = (a : Multiset α)) := by
      intro b hbl hblast hbheap hbm hbe
      have hmb : (b : Multiset α) = (a : Multiset α) := add_right_cancel hbm
      have htake := mset_take_last b (by omega)
      rw [hbl, hblast] at htake
      refine ⟨by rw [hbe, hbl], by rw [hbe]; exact hblast,
        by rw [hbe]; exact hbheap, ?_⟩
      rw [hbe, ← htake]
      exact hmb
    by_cases hbr : 0 < k
        ∧ lt (geti a1 ((k - 1) / 2)) value = true
    · -- bubble the former tail up from the hole
      obtain ⟨hkpos, hlt⟩ := hbr
      set par := (k - 1) / 2 with hpar
      have hparlt : par < k := by
        have := Nat.div_le_self (k - 1) 2
        omega
      have hpar_same : geti a1 par = geti a par := ha1k par (by omega)
      rw [hpar_same] at hlt
      set b := upHeap lt a1 k value with hb
      have hbl : b.length = n := by
        rw [hb, upHeap, upHeapF_length, hlen1]
      have hblast : geti b (n - 1) = geti a k := by
        rw [hb, upHeap, upHeapF_frame lt k a1 k value (n - 1)
          (fun hd => by have := hd.le; omega), ha1last]
      have hdpk : Desc par k := Desc.self_parent hkpos
      have hbheap : heapUpTo lt b (n - 1) := by
        rw [hb, upHeap]
        apply upHeapF_heap lt hasym hneg k a1 k value (n - 1) (Nat.le_refl _)
          (by omega) (by omega)
        · intro j hj hj0 hjne hjpar
          have hplt : (j - 1) / 2 < j := by
            have := Nat.div_le_self (j - 1) 2
            omega
          rw [ha1k j (by omega), ha1k _ (by omega)]
          exact hheap j (by omega) hj0
        · intro c hc hc0 hcp
          rw [ha1k c (by omega)]
          have hdc : Desc par c := hdpk.child hc0 hcp
          have hpc : lt (geti a par) (geti a c) = false :=
            hdom par c hdc (by omega)
          cases hvc : lt value (geti a c) with
          | false => rfl
          | true =>
            have := lt_trans_of_swo hasym hneg hlt hvc
            rw [hpc] at this
            exact absurd this (by simp)
        · intro c hc hc0 hcp hk0
          rw [ha1k c (by omega), ha1k _ (by omega)]
          exact hdom par c (hdpk.child hc0 hcp) (by omega)
      have hbm : (b : Multiset α) + {geti a k}
          = (a : Multiset α) + {geti a k} := by
        have h1 := upHeapF_mset lt k a1 k value (by omega)
        rw [ha1k k (by omega)] at h1
        have key : (b : Multiset α) + {geti a k} + {geti a (n - 1)}
            = (a : Multiset α) + {geti a k} + {geti a (n - 1)} := by
          rw [hb, upHeap, h1, add_right_comm, hmset1, add_right_comm, hv]
        exact add_right_cancel key
      have hres : popHeapPos lt a k = b := by
        rw [popHeapPos, if_pos (show 1 < a.length - k by omega),
          if_pos (show 0 < k ∧ _ from ⟨hkpos, by rw [hpar_same]; exact hlt⟩),
          hb]
      exact hfinish b hbl hblast hbheap hbm hres
    · -- sift the former tail down from the hole
      have hstop : 0 < k → lt (geti a ((k - 1) / 2)) value = false := by
        intro hkpos
        cases hlt : lt (geti a ((k - 1) / 2)) value with
        | false => rfl
        | true =>
          refine absurd ⟨hkpos, ?_⟩ hbr
          rw [ha1k _ (by omega)]
          exact hlt
      set b := downHeap lt a1 (n - 1) k value with hb
      have hbl : b.length = n := by
        rw [hb, downHeap, downHeapF_length, hlen1]
      have hblast : geti b (n - 1) = geti a k := by
        rw [hb, downHeap, downHeapF_frame lt (n - 1) a1 (n - 1) k value
          (by omega) (n - 1) (Or.inr (Nat.le_refl _)), ha1last]
      have hsub : ∀ j, j < n - 1 → Desc k j → j ≠ k → (j - 1) / 2 ≠ k →
          lt (geti a1 ((j - 1) / 2)) (geti a1 j) = false := by
        intro j hj hdj hne hpne
        have hjge : 2 * k + 1 ≤ j := by
          rcases hdj.eq_or_child_le with h | h <;> omega
        have := (hdj.parent_of_ne hne).le
        rw [ha1k j (by omega), ha1k _ (by omega)]
        exact hheap j (by omega) (by omega)
      have hd2 := downHeapF_heap lt hasym hneg (n - 1) a1 (n - 1) k value
        (by omega) (by omega) hsub
      have hbheap : heapUpTo lt b (n - 1) := by
        intro j hj hj0
        by_cases hdj : Desc k j
        · by_cases hje : j = k
          · subst hje
            have hkpos : 0 < j := hj0
            set par := (j - 1) / 2 with hpar
            have hparlt : par < j := by
              have := Nat.div_le_self (j - 1) 2
              omega
            have hfr : geti b par = geti a par := by
              rw [hb, downHeap, downHeapF_frame lt (n - 1) a1 (n - 1) j value
                (by omega) par (Or.inl fun hd => by have := hd.le; omega)]
              exact ha1k par (by omega)
            rw [hfr]
            rw [hb, downHeap]
            apply downHeapF_top lt (n - 1) a1 (n - 1) j value (by omega)
              (by omega) (by omega)
            · exact hstop hkpos
            · intro m hm hdm hmne
              have hmge : 2 * j + 1 ≤ m := by
                rcases hdm.eq_or_child_le with h | h <;> omega
              rw [ha1k m (by omega)]
              exact hdom par m ((Desc.self_parent hkpos).trans hdm) (by omega)
          · rw [hb, downHeap]
            exact hd2 j hj hdj hje
        · have hpnd : ¬ Desc k ((j - 1) / 2) := Desc.not_desc_parent hj0 hdj
          have hplt : (j - 1) / 2 < j := by
            have := Nat.div_le_self (j - 1) 2
            omega
          rw [hb, downHeap,
            downHeapF_frame lt (n - 1) a1 (n - 1) k value (by omega) j
              (Or.inl hdj),
            downHeapF_frame lt (n - 1) a1 (n - 1) k value (by omega) _
              (Or.inl hpnd),
            ha1k j (by omega), ha1k _ (by omega)]
          exact hheap j (by omega) hj0
      have hbm : (b : Multiset α) + {geti a k}
          = (a : Multiset α) + {geti a k} := by
        have h1 := downHeapF_mset lt (n - 1) a1 (n - 1) k value (by omega)
          (by omega)
        rw [ha1k k (by omega)] at h1
        have key : (b : Multiset α) + {geti a k} + {geti a (n - 1)}
            = (a : Multiset α) + {geti a k} + {geti a (n - 1)} := by
          rw [hb, downHeap, h1, add_right_comm, hmset1, add_right_comm, hv]
        exact add_right_cancel key
      have hres : popHeapPos lt a k = b := by
        rw [popHeapPos, if_pos (show 1 < a.length - k by omega), if_neg hbr,
          hb]
      exact hfinish b hbl hblast hbheap hbm hres
  · -- last - pos <= 1: the call does nothing (k = n-1 here)
    have hke : k = n - 1 := by omega
    have hres : popHeapPos lt a k = a := by
      rw [popHeapPos, if_neg (by omega)]
    have htake := mset_take_last a (by omega)
    refine ⟨by rw [hres], by rw [hres, hke], ?_, ?_⟩
    · intro j hj hj0
      rw [hres]
      exact hheap j (by omega) hj0
    · rw [← hn] at htake
      rw [hres, hke]
      exact htake.symm

/-- Correctness of `update_heap`: after an arbitrary external edit of one
slot of a heap, the call restores H everywhere and preserves the (edited)
multiset. -/
theorem updateHeap_correct (lt : α → α → Bool)
    (hasym : ∀ x y, lt x y = true → lt y x = false)
    (hneg : ∀ x y z, lt x y = false → lt y z = false → lt x z = false)
    (h0 : List α) (v : α) (k : Nat) (hk : k < h0.length)
    (hheap : heapUpTo lt h0 h0.length) :
    heapUpTo lt (updateHeap lt (h0.set k v) k) h0.length
      ∧ ((updateHeap lt (h0.set k v) k : List α) : Multiset α)
          = ((h0.set k v : List α) : Multiset α)
      ∧ (updateHeap lt (h0.set k v) k).length = h0.length := by
  set n := h0.length with hn
  set a := h0.set k v with ha
  have hlen_a : a.length = n := by rw [ha, List.length_set]
  have ha_ne : ∀ j, j ≠ k → geti a j = geti h0 j := by
    intro j hj
    exact geti_set_ne h0 k j v (fun h => hj h.symm)
  have ha_k : geti a k = v := geti_set_self h0 k v hk
  have hdom := heap_dominates lt hasym hneg h0 n hheap
  by_cases hbr : 0 < k ∧ lt (geti a ((k - 1) / 2)) (geti a k) = true
  · -- parent is smaller: bubble up
    obtain ⟨hkpos, hlt⟩ := hbr
    set par := (k - 1) / 2 with hpar
    have hparlt : par < k := by
      have := Nat.div_le_self (k - 1) 2
      omega
    rw [ha_ne par (by omega), ha_k] at hlt
    have hdpk : Desc par k := Desc.self_parent hkpos
    set b := upHeap lt a k (geti a k) with hb
    have hres : updateHeap lt a k = b := by
      rw [updateHeap,
        if_pos (show 0 < k ∧ _ from
          ⟨hkpos, by rw [ha_ne par (by omega), ha_k]; exact hlt⟩), hb]
    have hbheap : heapUpTo lt b n := by
      rw [hb, upHeap, ha_k]
      apply upHeapF_heap lt hasym hneg k a k v n (Nat.le_refl _) (by omega)
        (by omega)
      · intro j hj hj0 hjne hjpar
        rw [ha_ne j hjne, ha_ne _ hjpar]
        exact hheap j hj hj0
      · intro c hc hc0 hcp
        rw [ha_ne c (by omega)]
        have hpc : lt (geti h0 par) (geti h0 c) = false :=
          hdom par c (hdpk.child hc0 hcp) hc
        cases hvc : lt v (geti h0 c) with
        | false => rfl
        | true =>
          have := lt_trans_of_swo hasym hneg hlt hvc
          rw [hpc] at this
          exact absurd this (by simp)
      · intro c hc hc0 hcp hk0
        rw [ha_ne c (by omega), ha_ne _ (by omega)]
        exact hdom par c (hdpk.child hc0 hcp) hc
    have hbm : (b : Multiset α) = (a : Multiset α) := by
      have h1 := upHeapF_mset lt k a k (geti a k) (by omega)
      exact add_right_cancel h1
    have hbl : b.length = n := by
      rw [hb, upHeap, upHeapF_length, hlen_a]
    rw [hres]
    exact ⟨hbheap, hbm, hbl⟩
  · -- otherwise sift down
    set b := downHeap lt a a.length k (geti a k) with hb
    have hres : updateHeap lt a k = b := by
      rw [updateHeap, if_neg hbr, hb]
    have hstop : 0 < k → lt (geti h0 ((k - 1) / 2)) v = false := by
      intro hkpos
      cases hlt : lt (geti h0 ((k - 1) / 2)) v with
      | false => rfl
      | true =>
        refine absurd ⟨hkpos, ?_⟩ hbr
        have hparlt : (k - 1) / 2 < k := by
          have := Nat.div_le_self (k - 1) 2
          omega
        rw [ha_ne _ (by omega), ha_k]
        exact hlt
    have hsub : ∀ j, j < n → Desc k j → j ≠ k → (j - 1) / 2 ≠ k →
        lt (geti a ((j - 1) / 2)) (geti a j) = false := by
      intro j hj hdj hne hpne
      have hjge : 2 * k + 1 ≤ j := by
        rcases hdj.eq_or_child_le with h | h <;> omega
      rw [ha_ne j (by omega), ha_ne _ hpne]
      exact hheap j hj (by omega)
    have hd2 := downHeapF_heap lt hasym hneg a.length a a.length k (geti a k)
      (by omega) (Nat.le_refl _) (by rw [hlen_a]; exact hsub)
    have hbheap : heapUpTo lt b n := by
      intro j hj hj0
      by_cases hdj : Desc k j
      · by_cases hje : j = k
        · subst hje
          set par := (j - 1) / 2 with hpar
          have hparlt : par < j := by
            have := Nat.div_le_self (j - 1) 2
            omega
          have hfr : geti b par = geti h0 par := by
            rw [hb, downHeap, downHeapF_frame lt a.length a a.length j _
              (by omega) par (Or.inl fun hd => by have := hd.le; omega)]
            exact ha_ne par (by omega)
          rw [hfr, hb, downHeap]
          apply downHeapF_top lt a.length a a.length j (geti a j)
            (by omega) (by omega) (Nat.le_refl _)
          · rw [ha_k]
            exact hstop hj0
          · intro m hm hdm hmne
            have hmge : 2 * j + 1 ≤ m := by
              rcases hdm.eq_or_child_le with h | h <;> omega
            rw [ha_ne m (by omega)]
            exact hdom par m ((Desc.self_parent hj0).trans hdm) (by omega)
        · rw [hb, downHeap]
          exact hd2 j (by omega) hdj hje
      · have hpnd : ¬ Desc k ((j - 1) / 2) := Desc.not_desc_parent hj0 hdj
        have hjne : j ≠ k := by
          rintro rfl
          exact hdj (Desc.refl _)
        have hpne : (j - 1) / 2 ≠ k := by
          rintro he
          exact hpnd (he ▸ Desc.refl k)
        rw [hb, downHeap,
          downHeapF_frame lt a.length a a.length k _ (by omega) j
            (Or.inl hdj),
          downHeapF_frame lt a.length a a.length k _ (by omega) _
            (Or.inl hpnd),
          ha_ne j hjne, ha_ne _ hpne]
        exact hheap j hj hj0
    have hbm : (b : Multiset α) = (a : Multiset α) := by
      have h1 := downHeapF_mset lt a.length a a.length k (geti a k)
        (by omega) (Nat.le_refl _)
      exact add_right_cancel h1
    have hbl : b.length = n := by
      rw [hb, downHeap, downHeapF_length, hlen_a]
    rw [hres]
    exact ⟨hbheap, hbm, hbl⟩

/-!
Sequentialized model of `parallel_make_heap` (heap.hpp:966-1029).  The
barrier protocol forces the blocks to be consumed in decreasing block-index
order; this model executes the same block bodies in that order on a single
thread.
-/

/-- `__down_block(first, length, blockFront, blockLength)`
(heap.hpp:821-829): sift down each parent of the block, from
`blockFront + blockLength - 1` down to `blockFront`. -/
def downBlock (lt : α → α → Bool) (a : List α) (n : Nat) :
    Nat → Nat → List α
  | _, 0 => a
  | blockFront, l + 1 =>
    downBlock lt
      (downHeap lt a n (blockFront + l) (geti a (blockFront + l))) n
      blockFront l

/-- The claim loop of `__thread_worker` (heap.hpp:863-893), sequentialized:
blocks `k-1, k-2, ..., 0`, each of `blockSize` parents. -/
def blocksLoop (lt : α → α → Bool) (n blockSize : Nat) : List α → Nat → List α
  | a, 0 => a
  | a, k + 1 => blocksLoop lt n blockSize
      (downBlock lt a n (k * blockSize) blockSize) k

/-- `parallel_make_heap(first, last, blockSize, maxThreads)`
(heap.hpp:966-1029), sequentialized.  `processEnd = len/2` internal nodes
are split into `nblocks = ceil(processEnd / blockSize)` blocks; the calling
thread first runs the final (possibly partial) block
`[blockFront, processEnd)`, then the remaining full blocks are claimed in
decreasing order.

When `nblocks = 0` (inputs of length `<= 1`) the source has no guard: the
calling thread still executes `processBlock = --blocksRemaining`
(heap.hpp:932/999/1109), wrapping the `size_t` counter to `2^64 - 1`, so
`blockFront = processBlock * blockSize` becomes `-blockSize` as a signed
`SizeType`, `blockLength = processEnd - blockFront = blockSize`, and
`__down_block` reads and writes `*(first - 1)` and below — an out-of-range
access (the overload without a comparator additionally calls
`threads.reserve(nthreads - 1)` with `nthreads = 0`, i.e.
`reserve(SIZE_MAX)`).  That error path is modelled as `none`. -/
def parallelMakeHeapSeq (lt : α → α → Bool) (a : List α) (blockSize : Nat) :
    Option (List α) :=
  let n := a.length
  let processEnd := n / 2
  let nblocks :=
    processEnd / blockSize + (if processEnd % blockSize = 0 then 0 else 1)
  if nblocks = 0 then none
  else
    let blockFront := (nblocks - 1) * blockSize
    some (blocksLoop lt n blockSize
      (downBlock lt a n blockFront (processEnd - blockFront)) (nblocks - 1))

theorem downBlock_zero_eq (lt : α → α → Bool) (a : List α) (n : Nat) :
    ∀ k, makeHeapAux lt n a k = downBlock lt a n 0 k := by
  intro k
  induction k generalizing a with
  | zero => rfl
  | succ k ih =>
    show makeHeapAux lt n (downHeap lt a n k (geti a k)) k
      = downBlock lt (downHeap lt a n (0 + k) (geti a (0 + k))) n 0 k
    rw [Nat.zero_add]
    exact ih _

theorem downBlock_comp (lt : α → α → Bool) (n f : Nat) :
    ∀ (l2 : Nat) (l1 : Nat) (a : List α),
    downBlock lt a n f (l1 + l2)
      = downBlock lt (downBlock lt a n (f + l1) l2) n f l1 := by
  intro l2
  induction l2 with
  | zero => intro l1 a; rfl
  | succ l2 ih =>
    intro l1 a
    have h1 : l1 + (l2 + 1) = (l1 + l2) + 1 := by omega
    rw [h1]
    show downBlock lt
        (downHeap lt a n (f + (l1 + l2)) (geti a (f + (l1 + l2)))) n f (l1 + l2)
      = downBlock lt
        (downBlock lt
          (downHeap lt a n (f + l1 + l2) (geti a (f + l1 + l2))) n (f + l1) l2)
        n f l1
    rw [show f + (l1 + l2) = f + l1 + l2 by omega]
    exact ih l1 _

theorem downBlock_comp0 (lt : α → α → Bool) (n : Nat) (l2 l1 : Nat)
    (a : List α) :
    downBlock lt a n 0 (l1 + l2)
      = downBlock lt (downBlock lt a n l1 l2) n 0 l1 := by
  have h := downBlock_comp lt n 0 l2 l1 a
  rwa [Nat.zero_add] at h

theorem blocksLoop_eq (lt : α → α → Bool) (n bs : Nat) :
    ∀ (k : Nat) (a : List α),
    blocksLoop lt n bs a k = downBlock lt a n 0 (k * bs) := by
  intro k
  induction k with
  | zero =>
    intro a
    rw [Nat.zero_mul]
    rfl
  | succ k ih =>
    intro a
    show blocksLoop lt n bs (downBlock lt a n (k * bs) bs) k = _
    rw [ih, show (k + 1) * bs = k * bs + bs by ring,
      downBlock_comp lt n 0 bs (k * bs) a, Nat.zero_add]

theorem nb_front_le_aux (q m pe bs : Nat) (h1 : bs * q + m = pe)
    (h2 : m < bs) : (q + (if m = 0 then 0 else 1) - 1) * bs ≤ pe := by
  have hc : q * bs = bs * q := Nat.mul_comm _ _
  rcases Nat.eq_zero_or_pos m with hz | hp
  · rw [if_pos hz]
    have h3 : (q + 0 - 1) * bs ≤ q * bs := mul_le_mul_right' (by omega) bs
    omega
  · rw [if_neg (by omega)]
    have he : q + 1 - 1 = q := by omega
    rw [he]
    omega

theorem nb_front_le (pe bs : Nat) (hbs : 1 ≤ bs) :
    (pe / bs + (if pe % bs = 0 then 0 else 1) - 1) * bs ≤ pe :=
  nb_front_le_aux (pe / bs) (pe % bs) pe bs (Nat.div_add_mod pe bs)
    (Nat.mod_lt pe (by omega))

theorem nb_pos (pe bs : Nat) (hbs : 1 ≤ bs) (hpe : 1 ≤ pe) :
    1 ≤ pe / bs + (if pe % bs = 0 then 0 else 1) := by
  rcases Nat.eq_zero_or_pos (pe % bs) with hz | hp
  · rw [if_pos hz]
    rcases Nat.eq_zero_or_pos (pe / bs) with hq | hq
    · have hdm := Nat.div_add_mod pe bs
      rw [hq, Nat.mul_zero] at hdm
      omega
    · omega
  · rw [if_neg (by omega)]
    exact Nat.le_add_left 1 (pe / bs)

/-- The block bodies of the sequentialized parallel build, processed in
decreasing index order, cover the parents `processEnd - 1, ..., 0` in
exactly the sequential `make_heap` order. -/
theorem parallelCore_eq (lt : α → α → Bool) (a : List α)
    (blockSize : Nat) (hbs : 1 ≤ blockSize) :
    blocksLoop lt a.length blockSize
        (downBlock lt a a.length
          ((a.length / 2 / blockSize
              + (if a.length / 2 % blockSize = 0 then 0 else 1) - 1)
            * blockSize)
          (a.length / 2
            - (a.length / 2 / blockSize
                + (if a.length / 2 % blockSize = 0 then 0 else 1) - 1)
              * blockSize))
        (a.length / 2 / blockSize
          + (if a.length / 2 % blockSize = 0 then 0 else 1) - 1)
      = makeHeap lt a := by
  unfold makeHeap
  have hfr := nb_front_le (a.length / 2) blockSize hbs
  rw [blocksLoop_eq lt a.length blockSize _ _,
    ← downBlock_comp0 lt a.length
      (a.length / 2
        - (a.length / 2 / blockSize
            + (if a.length / 2 % blockSize = 0 then 0 else 1) - 1) * blockSize)
      ((a.length / 2 / blockSize
          + (if a.length / 2 % blockSize = 0 then 0 else 1) - 1) * blockSize)
      a,
    show (a.length / 2 / blockSize
          + (if a.length / 2 % blockSize = 0 then 0 else 1) - 1) * blockSize
        + (a.length / 2
          - (a.length / 2 / blockSize
              + (if a.length / 2 % blockSize = 0 then 0 else 1) - 1) * blockSize)
      = a.length / 2 by omega]
  exact (downBlock_zero_eq lt a a.length (a.length / 2)).symm

/-- Whenever at least one block exists (`n >= 2`), the sequentialized
parallel build succeeds and computes exactly the sequential `make_heap`
result. -/
theorem parallelMakeHeapSeq_eq (lt : α → α → Bool) (a : List α)
    (blockSize : Nat) (hbs : 1 ≤ blockSize) (hlen : 2 ≤ a.length) :
    parallelMakeHeapSeq lt a blockSize = some (makeHeap lt a) := by
  unfold parallelMakeHeapSeq
  dsimp only
  have hpos := nb_pos (a.length / 2) blockSize hbs (by omega)
  rw [if_neg (by omega), parallelCore_eq lt a blockSize hbs]

/-- On inputs of length `<= 1` there is no block, the unguarded claim of
the calling thread underflows the counter, and the build takes the
out-of-range error path. -/
theorem parallelMakeHeapSeq_err (lt : α → α → Bool) (a : List α)
    (blockSize : Nat) (hn : a.length ≤ 1) :
    parallelMakeHeapSeq lt a blockSize = none := by
  unfold parallelMakeHeapSeq
  dsimp only
  have hpe : a.length / 2 = 0 := by omega
  rw [hpe]
  simp

/-!
The block-claim protocol of `__thread_worker` (heap.hpp:869-878):

  size_t processBlock = --blocksRemaining;
  if (processBlock + nthreads < nthreads) { complete = true; ... break; }

`blocksRemaining` is an unsigned `size_t` counter (width 64) initialised to
`nblocks`; each claim is an atomic pre-decrement whose new value is taken
as the block index, and the wrap test `processBlock + nthreads < nthreads`
(all mod 2^64) detects that the counter went past zero.  Atomic decrements
serialize, so the value seen by the `d`-th claim (in serialization order)
is `(nblocks + 2^64 - d) % 2^64`.  A worker that sees the wrap test succeed
exits and never claims again.
-/

/-- Word size of the `size_t` counter. -/
def uWord : Nat := 2 ^ 64

/-- Counter value returned by the `d`-th atomic decrement (the new value,
mod `2^64`), starting from `nblocks`. -/
def counterAfter (nblocks d : Nat) : Nat := (nblocks + uWord - d) % uWord

/-- The overflow-safe emptiness test
`processBlock + nthreads < (size_t)nthreads` of heap.hpp:842. -/
def claimEmpty (v nthreads : Nat) : Bool :=
  decide ((v + nthreads) % uWord < nthreads)

/-- Reachable states of the claim loop, sequentialized: `d` decrements have
been performed so far and `e` workers have seen the emptiness test succeed
and exited.  A step is a claim by one of the `nthreads - e` still-running
workers; the claimer exits exactly when the test on the new counter value
succeeds. -/
inductive Claims (nblocks nthreads : Nat) : Nat → Nat → Prop where
  | start : Claims nblocks nthreads 0 0
  | step {d e : Nat} : Claims nblocks nthreads d e → e < nthreads →
      Claims nblocks nthreads (d + 1)
        (if claimEmpty (counterAfter nblocks (d + 1)) nthreads then e + 1
          else e)

theorem counterAfter_le (nblocks d : Nat) (hb : nblocks ≤ d)
    (hd : d ≤ nblocks + uWord) (hd0 : 0 < d - nblocks) :
    counterAfter nblocks d = uWord - (d - nblocks) := by
  unfold counterAfter
  have h1 : nblocks + uWord - d = uWord - (d - nblocks) := by omega
  rw [h1]
  have h2 : uWord - (d - nblocks) < uWord := by
    have : 0 < uWord := by
      unfold uWord
      norm_num
    omega
  exact Nat.mod_eq_of_lt h2

theorem counterAfter_ge (nblocks d : Nat) (hd : d ≤ nblocks)
    (hsz : nblocks < uWord) : counterAfter nblocks d = nblocks - d := by
  unfold counterAfter
  have h1 : nblocks + uWord - d = uWord + (nblocks - d) := by omega
  rw [h1, Nat.add_comm uWord (nblocks - d), Nat.add_mod_right]
  exact Nat.mod_eq_of_lt (by omega)

theorem claimEmpty_true_of_wrapped (nthreads j : Nat) (h1 : 1 ≤ j)
    (h2 : j ≤ nthreads) (hsz : nthreads < uWord) :
    claimEmpty (uWord - j) nthreads = true := by
  unfold claimEmpty
  have h3 : uWord - j + nthreads = uWord + (nthreads - j) := by omega
  rw [h3, Nat.add_comm uWord (nthreads - j), Nat.add_mod_right]
  have h4 : (nthreads - j) % uWord = nthreads - j :=
    Nat.mod_eq_of_lt (by omega)
  rw [h4]
  simp
  omega

theorem claimEmpty_false_of_index (nthreads v : Nat)
    (hv : v + nthreads < uWord) : claimEmpty v nthreads = false := by
  unfold claimEmpty
  rw [Nat.mod_eq_of_lt hv]
  simp

/-- Invariant of the claim loop: the exit count tracks the number of
post-zero decrements, so at most `nblocks + nthreads` decrements ever
happen. -/
theorem claims_invariant (nblocks nthreads : Nat) (hn : 1 ≤ nthreads)
    (hsz : nblocks + nthreads < uWord) :
    ∀ d e, Claims nblocks nthreads d e →
      e = d - nblocks ∧ e ≤ nthreads ∧ d ≤ nblocks + nthreads := by
  intro d e h
  induction h with
  | start => omega
  | @step d e hcl hlt ih =>
    obtain ⟨ih1, ih2, ih3⟩ := ih
    by_cases hdb : d + 1 ≤ nblocks
    · have hcv : counterAfter nblocks (d + 1) = nblocks - (d + 1) :=
        counterAfter_ge nblocks (d + 1) hdb (by omega)
      have hfalse : claimEmpty (counterAfter nblocks (d + 1)) nthreads
          = false := by
        rw [hcv]
        exact claimEmpty_false_of_index nthreads _ (by omega)
      rw [hfalse]
      simp only [if_neg (by simp : ¬ (false = true))]
      omega
    · have hj : 1 ≤ d + 1 - nblocks := by omega
      have hcv : counterAfter nblocks (d + 1)
          = uWord - (d + 1 - nblocks) :=
        counterAfter_le nblocks (d + 1) (by omega) (by omega) (by omega)
      have htrue : claimEmpty (counterAfter nblocks (d + 1)) nthreads
          = true := by
        rw [hcv]
        exact claimEmpty_true_of_wrapped nthreads (d + 1 - nblocks) hj
          (by omega) (by omega)
      rw [htrue]
      simp only [if_pos]
      omega

/-!
Observer (move-callback) variants, translated from heap.hpp:552-802.  The
observer is modelled as a trace: the second component lists the
`moved(value, from, to)` calls in chronological order.
-/

/-- `__up_heap` with callback (heap.hpp:562-579).  Each parent moved down
reports `moved(a[child], parent, child)`; the final placement reports
`moved(p, ppos, child)` where `ppos` is the origin slot of `p`. -/
def upHeapCF (lt : α → α → Bool) :
    Nat → List α → Nat → α → Nat → List α × List (α × Nat × Nat)
  | 0, a, pos, p, ppos => (a.set pos p, [(p, ppos, pos)])
  | fuel + 1, a, pos, p, ppos =>
    if 0 < pos ∧ lt (geti a ((pos - 1) / 2)) p = true then
      let r := upHeapCF lt fuel (a.set pos (geti a ((pos - 1) / 2)))
        ((pos - 1) / 2) p ppos
      (r.1, (geti a ((pos - 1) / 2), (pos - 1) / 2, pos) :: r.2)
    else (a.set pos p, [(p, ppos, pos)])

def upHeapC (lt : α → α → Bool) (a : List α) (pos : Nat) (p : α)
    (ppos : Nat) : List α × List (α × Nat × Nat) :=
  upHeapCF lt pos a pos p ppos

/-- `__down_heap` with callback (heap.hpp:593-626).  Each child moved up
reports `moved(a[child], child, parent)`; the final placement reports
`moved(p, ppos, parent)`. -/
def downHeapCF (lt : α → α → Bool) :
    Nat → List α → Nat → Nat → α → Nat → List α × List (α × Nat × Nat)
  | 0, a, _, hole, p, ppos => (a.set hole p, [(p, ppos, hole)])
  | fuel + 1, a, n, hole, p, ppos =>
    if 2 * hole + 1 < n then
      let c := largerChild lt a n (2 * hole + 1)
      if lt (geti a c) p = true then (a.set hole p, [(p, ppos, hole)])
      else
        let r := downHeapCF lt fuel (a.set hole (geti a c)) n c p ppos
        (r.1, (geti a c, c, hole) :: r.2)
    else (a.set hole p, [(p, ppos, hole)])

def downHeapC (lt : α → α → Bool) (a : List α) (n hole : Nat) (p : α)
    (ppos : Nat) : List α × List (α × Nat × Nat) :=
  downHeapCF lt n a n hole p ppos

/-- `make_heap` with callback (heap.hpp:675-685): each sift passes
`ppos = parent`. -/
def makeHeapCAux (lt : α → α → Bool) (n : Nat) :
    List α → Nat → List α × List (α × Nat × Nat)
  | a, 0 => (a, [])
  | a, k + 1 =>
    let r := downHeapC lt a n k (geti a k) k
    let r2 := makeHeapCAux lt n r.1 k
    (r2.1, r.2 ++ r2.2)

def makeHeapC (lt : α → α → Bool) (a : List α) :
    List α × List (α × Nat × Nat) :=
  makeHeapCAux lt a.length a (a.length / 2)

/-- `push_heap` with callback (heap.hpp:695-711): when no sift is needed
the observer still gets `moved(a[lastPos], lastPos, lastPos)`. -/
def pushHeapC (lt : α → α → Bool) (a : List α) :
    List α × List (α × Nat × Nat) :=
  if 0 < a.length - 1
      ∧ lt (geti a ((a.length - 1 - 1) / 2)) (geti a (a.length - 1)) = true then
    upHeapC lt a (a.length - 1) (geti a (a.length - 1)) (a.length - 1)
  else (a, [(geti a (a.length - 1), a.length - 1, a.length - 1)])

/-- `pop_heap` with callback (heap.hpp:721-732): after the internal
`__pop_heap` (heap.hpp:628-640), the relocation of the former root into the
tail slot is reported as `moved(a[last-1], 0, last-first-1)`. -/
def popHeapC (lt : α → α → Bool) (a : List α) :
    List α × List (α × Nat × Nat) :=
  let n := a.length
  let r := if 1 < n then
      downHeapC lt (a.set (n - 1) (geti a 0)) (n - 1) 0 (geti a (n - 1)) (n - 1)
    else (a, [])
  (r.1, r.2 ++ [(geti r.1 (n - 1), 0, n - 1)])

/-- Positional `pop_heap` with callback (heap.hpp:743-754) via
`__pop_heap_pos` (heap.hpp:642-665): the trailing report is
`moved(a[last-1], pos - first, last - first - 1)`. -/
def popHeapPosC (lt : α → α → Bool) (a : List α) (k : Nat) :
    List α × List (α × Nat × Nat) :=
  let n := a.length
  let r := if 1 < n - k then
      if 0 < k
          ∧ lt (geti (a.set (n - 1) (geti a k)) ((k - 1) / 2))
              (geti a (n - 1)) = true then
        upHeapC lt (a.set (n - 1) (geti a k)) k (geti a (n - 1)) (n - 1)
      else
        downHeapC lt (a.set (n - 1) (geti a k)) (n - 1) k (geti a (n - 1))
          (n - 1)
    else (a, [])
  (r.1, r.2 ++ [(geti r.1 (n - 1), k, n - 1)])

/-- `sort_heap` with callback (heap.hpp:764-774): after each internal pop
the landing of the popped maximum is reported as
`moved(a[last], 0, last - first)`. -/
def sortHeapCAux (lt : α → α → Bool) :
    List α → Nat → List α × List (α × Nat × Nat)
  | a, 0 => (a, [])
  | a, 1 => (a, [])
  | a, m + 2 =>
    let r := downHeapC lt (a.set (m + 1) (geti a 0)) (m + 1) 0
      (geti a (m + 1)) (m + 1)
    let r2 := sortHeapCAux lt r.1 (m + 1)
    (r2.1, r.2 ++ [(geti r.1 (m + 1), 0, m + 1)] ++ r2.2)

def sortHeapC (lt : α → α → Bool) (a : List α) :
    List α × List (α × Nat × Nat) :=
  sortHeapCAux lt a a.length

/-- `update_heap` with callback (heap.hpp:785-802): both branches pass
`ppos = posd`. -/
def updateHeapC (lt : α → α → Bool) (a : List α) (k : Nat) :
    List α × List (α × Nat × Nat) :=
  if 0 < k ∧ lt (geti a ((k - 1) / 2)) (geti a k) = true then
    upHeapC lt a k (geti a k) k
  else downHeapC lt a a.length k (geti a k) k

/-- Replaying a trace: apply each reported `moved(value, from, to)` as the
write `a[to] = value`, in order. -/
def replay (a : List α) (tr : List (α × Nat × Nat)) : List α :=
  tr.foldl (fun b e => b.set e.2.2 e.1) a

theorem replay_append (a : List α) (t1 t2 : List (α × Nat × Nat)) :
    replay a (t1 ++ t2) = replay (replay a t1) t2 :=
  List.foldl_append _ _ _ _

/-!
Observer transparency: the callback variants compute exactly the same
final sequence as the plain variants.
-/

theorem upHeapCF_fst (lt : α → α → Bool) (fuel : Nat) :
    ∀ (a : List α) (pos : Nat) (p : α) (ppos : Nat),
    (upHeapCF lt fuel a pos p ppos).1 = upHeapF lt fuel a pos p := by
  induction fuel with
  | zero => intro a pos p ppos; rfl
  | succ fuel ih =>
    intro a pos p ppos
    unfold upHeapCF upHeapF
    dsimp only
    split
    · exact ih _ _ _ _
    · rfl

theorem downHeapCF_fst (lt : α → α → Bool) (fuel : Nat) :
    ∀ (a : List α) (n hole : Nat) (p : α) (ppos : Nat),
    (downHeapCF lt fuel a n hole p ppos).1 = downHeapF lt fuel a n hole p := by
  induction fuel with
  | zero => intro a n hole p ppos; rfl
  | succ fuel ih =>
    intro a n hole p ppos
    unfold downHeapCF downHeapF
    dsimp only
    split
    · split
      · rfl
      · exact ih _ _ _ _ _
    · rfl

theorem makeHeapCAux_fst (lt : α → α → Bool) (n : Nat) :
    ∀ (k : Nat) (a : List α),
    (makeHeapCAux lt n a k).1 = makeHeapAux lt n a k := by
  intro k
  induction k with
  | zero => intro a; rfl
  | succ k ih =>
    intro a
    show (makeHeapCAux lt n (downHeapC lt a n k (geti a k) k).1 k).1 = _
    rw [ih, downHeapC, downHeapCF_fst]
    rfl

theorem makeHeapC_fst (lt : α → α → Bool) (a : List α) :
    (makeHeapC lt a).1 = makeHeap lt a :=
  makeHeapCAux_fst lt a.length (a.length / 2) a

theorem pushHeapC_fst (lt : α → α → Bool) (a : List α) :
    (pushHeapC lt a).1 = pushHeap lt a := by
  unfold pushHeapC pushHeap
  split
  · rw [upHeapC, upHeapCF_fst]
    rfl
  · rfl

theorem popHeapC_fst (lt : α → α → Bool) (a : List α) :
    (popHeapC lt a).1 = popHeap lt a := by
  unfold popHeapC popHeap
  dsimp only
  split
  · rw [downHeapC, downHeapCF_fst]
    rfl
  · rfl

theorem popHeapPosC_fst (lt : α → α → Bool) (a : List α) (k : Nat) :
    (popHeapPosC lt a k).1 = popHeapPos lt a k := by
  unfold popHeapPosC popHeapPos
  dsimp only
  split
  · split
    · rw [upHeapC, upHeapCF_fst]
      rfl
    · rw [downHeapC, downHeapCF_fst]
      rfl
  · rfl

theorem sortHeapCAux_fst (lt : α → α → Bool) :
    ∀ (m : Nat) (a : List α),
    (sortHeapCAux lt a m).1 = sortHeapAux lt a m := by
  intro m
  induction m using Nat.strong_induction_on with
  | _ m ih =>
    match m with
    | 0 => intro a; rfl
    | 1 => intro a; rfl
    | m + 2 =>
      intro a
      show (sortHeapCAux lt
        (downHeapC lt (a.set (m + 1) (geti a 0)) (m + 1) 0
          (geti a (m + 1)) (m + 1)).1 (m + 1)).1 = _
      rw [ih (m + 1) (by omega), downHeapC, downHeapCF_fst]
      rfl

theorem sortHeapC_fst (lt : α → α → Bool) (a : List α) :
    (sortHeapC lt a).1 = sortHeap lt a :=
  sortHeapCAux_fst lt a.length a

theorem updateHeapC_fst (lt : α → α → Bool) (a : List α) (k : Nat) :
    (updateHeapC lt a k).1 = updateHeap lt a k := by
  unfold updateHeapC updateHeap
  split
  · rw [upHeapC, upHeapCF_fst]
    rfl
  · rw [downHeapC, downHeapCF_fst]
    rfl

/-!
Replay soundness: applying the reported moves, in order, to the input
sequence reconstructs the final sequence — every relocation performed by an
operation is covered by its callback stream.
-/

theorem upHeapCF_replay (lt : α → α → Bool) (fuel : Nat) :
    ∀ (a : List α) (pos : Nat) (p : α) (ppos : Nat),
    replay a (upHeapCF lt fuel a pos p ppos).2
      = (upHeapCF lt fuel a pos p ppos).1 := by
  induction fuel with
  | zero => intro a pos p ppos; rfl
  | succ fuel ih =>
    intro a pos p ppos
    unfold upHeapCF
    dsimp only
    split
    · exact ih _ _ _ _
    · rfl

theorem downHeapCF_replay (lt : α → α → Bool) (fuel : Nat) :
    ∀ (a : List α) (n hole : Nat) (p : α) (ppos : Nat),
    replay a (downHeapCF lt fuel a n hole p ppos).2
      = (downHeapCF lt fuel a n hole p ppos).1 := by
  induction fuel with
  | zero => intro a n hole p ppos; rfl
  | succ fuel ih =>
    intro a n hole p ppos
    unfold downHeapCF
    dsimp only
    split
    · split
      · rfl
      · exact ih _ _ _ _ _
    · rfl

/-- Every reported `to` slot of a callback sift-down lies in
`[hole, n)`. -/
theorem downHeapCF_to_mem (lt : α → α → Bool) (fuel : Nat) :
    ∀ (a : List α) (n hole : Nat) (p : α) (ppos : Nat), hole < n →
    ∀ e ∈ (downHeapCF lt fuel a n hole p ppos).2,
      hole ≤ e.2.2 ∧ e.2.2 < n := by
  induction fuel with
  | zero =>
    intro a n hole p ppos hn e he
    simp only [downHeapCF, List.mem_singleton] at he
    subst he
    exact ⟨Nat.le_refl _, hn⟩
  | succ fuel ih =>
    intro a n hole p ppos hn e he
    unfold downHeapCF at he
    dsimp only at he
    split at he
    · rename_i hguard
      split at he
      · simp only [List.mem_singleton] at he
        subst he
        exact ⟨Nat.le_refl _, hn⟩
      · simp only [List.mem_cons] at he
        have hcge := largerChild_ge lt a n (2 * hole + 1)
        have hcn := largerChild_lt_n lt a n (2 * hole + 1) hguard
        rcases he with he | he
        · subst he
          exact ⟨Nat.le_refl _, hn⟩
        · have := ih _ n _ p ppos hcn e he
          exact ⟨by omega, this.2⟩
    · simp only [List.mem_singleton] at he
      subst he
      exact ⟨Nat.le_refl _, hn⟩

/-- Every reported `to` slot of a callback sift-up is at most `pos`. -/
theorem upHeapCF_to_mem (lt : α → α → Bool) (fuel : Nat) :
    ∀ (a : List α) (pos : Nat) (p : α) (ppos : Nat),
    ∀ e ∈ (upHeapCF lt fuel a pos p ppos).2, e.2.2 ≤ pos := by
  induction fuel with
  | zero =>
    intro a pos p ppos e he
    simp only [upHeapCF, List.mem_singleton] at he
    subst he
    exact Nat.le_refl _
  | succ fuel ih =>
    intro a pos p ppos e he
    unfold upHeapCF at he
    dsimp only at he
    split at he
    · rename_i hcond
      simp only [List.mem_cons] at he
      have hparlt : (pos - 1) / 2 < pos := by
        have := Nat.div_le_self (pos - 1) 2
        omega
      rcases he with he | he
      · subst he
        exact Nat.le_refl _
      · have := ih _ _ p ppos e he
        omega
    · simp only [List.mem_singleton] at he
      subst he
      exact Nat.le_refl _

/-- A write to a slot no event of the trace touches commutes with the
replay. -/
theorem replay_set_comm (i : Nat) (v : α) :
    ∀ (tr : List (α × Nat × Nat)) (a : List α), (∀ e ∈ tr, e.2.2 ≠ i) →
    replay (a.set i v) tr = (replay a tr).set i v := by
  intro tr
  induction tr with
  | nil => intro a _; rfl
  | cons e tr ih =>
    intro a h
    have he : e.2.2 ≠ i := h e (List.mem_cons_self _ _)
    show replay ((a.set i v).set e.2.2 e.1) tr = _
    rw [set_comm_ne a i e.2.2 v e.1 (fun hh => he hh.symm)]
    exact ih (a.set e.2.2 e.1) (fun e2 h2 => h e2 (List.mem_cons_of_mem _ h2))

/-- Replaying a sift trace followed by one trailing report
`moved(b[m], k, m)` from a start state that differs from the sift's input
only at slot `m` reconstructs the sift's final state. -/
theorem replay_pop_tail (a1 b : List α) (tr : List (α × Nat × Nat))
    (m k : Nat) (v : α) (hto : ∀ e ∈ tr, e.2.2 ≠ m)
    (hrep : replay a1 tr = b) :
    replay (a1.set m v) (tr ++ [(geti b m, k, m)]) = b := by
  rw [replay_append, replay_set_comm m v tr a1 hto]
  show ((replay a1 tr).set m v).set m (geti b m) = b
  rw [hrep, set_set_self, set_geti_self]

/-- Replay of one `__pop_heap`-with-callback step at boundary `m`: the
trailing `moved(a[m], 0, m)` report together with the sift trace
reconstructs the final sequence from the state before the pop. -/
theorem popStep_replay (lt : α → α → Bool) (a : List α) (m : Nat)
    (hm : 0 < m) :
    replay a ((downHeapC lt (a.set m (geti a 0)) m 0 (geti a m) m).2
        ++ [(geti (downHeapC lt (a.set m (geti a 0)) m 0 (geti a m) m).1 m,
          0, m)])
      = (downHeapC lt (a.set m (geti a 0)) m 0 (geti a m) m).1 := by
  set a1 := a.set m (geti a 0) with ha1
  set r := downHeapC lt a1 m 0 (geti a m) m with hr
  have hto : ∀ e ∈ r.2, e.2.2 ≠ m := by
    intro e he
    have := downHeapCF_to_mem lt m a1 m 0 (geti a m) m hm e he
    omega
  have hsplit : a = a1.set m (geti a m) := by
    rw [ha1, set_set_self, set_geti_self]
  have hrep : replay a1 r.2 = r.1 := by
    rw [hr, downHeapC]
    exact downHeapCF_replay lt m a1 m 0 (geti a m) m
  have h := replay_pop_tail a1 r.1 r.2 m 0 (geti a m) hto hrep
  rw [← hsplit] at h
  exact h

theorem makeHeapCAux_replay (lt : α → α → Bool) (n : Nat) :
    ∀ (k : Nat) (a : List α),
    replay a (makeHeapCAux lt n a k).2 = (makeHeapCAux lt n a k).1 := by
  intro k
  induction k with
  | zero => intro a; rfl
  | succ k ih =>
    intro a
    show replay a ((downHeapC lt a n k (geti a k) k).2
        ++ (makeHeapCAux lt n (downHeapC lt a n k (geti a k) k).1 k).2)
      = (makeHeapCAux lt n (downHeapC lt a n k (geti a k) k).1 k).1
    rw [replay_append, downHeapC, downHeapCF_replay]
    exact ih _

theorem makeHeapC_replay (lt : α → α → Bool) (a : List α) :
    replay a (makeHeapC lt a).2 = (makeHeapC lt a).1 :=
  makeHeapCAux_replay lt a.length (a.length / 2) a

theorem pushHeapC_replay (lt : α → α → Bool) (a : List α) :
    replay a (pushHeapC lt a).2 = (pushHeapC lt a).1 := by
  unfold pushHeapC
  split
  · rw [upHeapC, upHeapCF_replay]
  · show (a.set (a.length - 1) (geti a (a.length - 1))) = a
    rw [set_geti_self]

theorem popHeapC_replay (lt : α → α → Bool) (a : List α) :
    replay a (popHeapC lt a).2 = (popHeapC lt a).1 := by
  unfold popHeapC
  dsimp only
  split
  · rename_i hn
    exact popStep_replay lt a (a.length - 1) (by omega)
  · show replay a [(geti a (a.length - 1), 0, a.length - 1)] = a
    show a.set (a.length - 1) (geti a (a.length - 1)) = a
    rw [set_geti_self]

theorem popHeapPosC_replay (lt : α → α → Bool) (a : List α) (k : Nat) :
    replay a (popHeapPosC lt a k).2 = (popHeapPosC lt a k).1 := by
  unfold popHeapPosC
  dsimp only
  split
  · rename_i hguard
    set a1 := a.set (a.length - 1) (geti a k) with ha1
    have hsplit : a = a1.set (a.length - 1) (geti a (a.length - 1)) := by
      rw [ha1, set_set_self, set_geti_self]
    split
    · set r := upHeapC lt a1 k (geti a (a.length - 1)) (a.length - 1) with hr
      have hto : ∀ e ∈ r.2, e.2.2 ≠ a.length - 1 := by
        intro e he
        have := upHeapCF_to_mem lt k a1 k (geti a (a.length - 1))
          (a.length - 1) e he
        omega
      have hrep : replay a1 r.2 = r.1 := by
        rw [hr, upHeapC]
        exact upHeapCF_replay lt k a1 k _ _
      have h := replay_pop_tail a1 r.1 r.2 (a.length - 1) k
        (geti a (a.length - 1)) hto hrep
      rw [← hsplit] at h
      exact h
    · set r := downHeapC lt a1 (a.length - 1) k (geti a (a.length - 1))
        (a.length - 1) with hr
      have hto : ∀ e ∈ r.2, e.2.2 ≠ a.length - 1 := by
        intro e he
        have := downHeapCF_to_mem lt (a.length - 1) a1 (a.length - 1) k
          (geti a (a.length - 1)) (a.length - 1) (by omega) e he
        omega
      have hrep : replay a1 r.2 = r.1 := by
        rw [hr, downHeapC]
        exact downHeapCF_replay lt (a.length - 1) a1 (a.length - 1) k _ _
      have h := replay_pop_tail a1 r.1 r.2 (a.length - 1) k
        (geti a (a.length - 1)) hto hrep
      rw [← hsplit] at h
      exact h
  · show replay a [(geti a (a.length - 1), k, a.length - 1)] = a
    show a.set (a.length - 1) (geti a (a.length - 1)) = a
    rw [set_geti_self]

theorem sortHeapCAux_replay (lt : α → α → Bool) :
    ∀ (m : Nat) (a : List α),
    replay a (sortHeapCAux lt a m).2 = (sortHeapCAux lt a m).1 := by
  intro m
  induction m using Nat.strong_induction_on with
  | _ m ih =>
    match m with
    | 0 => intro a; rfl
    | 1 => intro a; rfl
    | m + 2 =>
      intro a
      show replay a
          ((downHeapC lt (a.set (m + 1) (geti a 0)) (m + 1) 0
              (geti a (m + 1)) (m + 1)).2
            ++ [(geti (downHeapC lt (a.set (m + 1) (geti a 0)) (m + 1) 0
                (geti a (m + 1)) (m + 1)).1 (m + 1), 0, m + 1)]
            ++ (sortHeapCAux lt
              (downHeapC lt (a.set (m + 1) (geti a 0)) (m + 1) 0
                (geti a (m + 1)) (m + 1)).1 (m + 1)).2)
        = _
      rw [replay_append, popStep_replay lt a (m + 1) (by omega)]
      exact ih (m + 1) (by omega) _

theorem sortHeapC_replay (lt : α → α → Bool) (a : List α) :
    replay a (sortHeapC lt a).2 = (sortHeapC lt a).1 :=
  sortHeapCAux_replay lt a.length a

theorem updateHeapC_replay (lt : α → α → Bool) (a : List α) (k : Nat) :
    replay a (updateHeapC lt a k).2 = (updateHeapC lt a k).1 := by
  unfold updateHeapC
  split
  · rw [upHeapC, upHeapCF_replay]
  · rw [downHeapC, downHeapCF_replay]

/-!
Origin correctness of the reported `from` fields: every event of a sift
either reports the sifted value `p` with its declared origin `ppos`, or
reports a value still sitting (unmoved since the start of the sift) at the
reported `from` slot.
-/

theorem downHeapCF_from (lt : α → α → Bool) (fuel : Nat) :
    ∀ (a : List α) (n hole : Nat) (p : α) (ppos : Nat), hole < n →
    ∀ e ∈ (downHeapCF lt fuel a n hole p ppos).2,
      (e.1 = p ∧ e.2.1 = ppos)
        ∨ (hole < e.2.1 ∧ e.2.1 < n ∧ e.1 = geti a e.2.1) := by
  induction fuel with
  | zero =>
    intro a n hole p ppos hn e he
    simp only [downHeapCF, List.mem_singleton] at he
    subst he
    exact Or.inl ⟨rfl, rfl⟩
  | succ fuel ih =>
    intro a n hole p ppos hn e he
    unfold downHeapCF at he
    dsimp only at he
    split at he
    · rename_i hguard
      split at he
      · simp only [List.mem_singleton] at he
        subst he
        exact Or.inl ⟨rfl, rfl⟩
      · simp only [List.mem_cons] at he
        have hcge := largerChild_ge lt a n (2 * hole + 1)
        have hcn := largerChild_lt_n lt a n (2 * hole + 1) hguard
        rcases he with he | he
        · subst he
          have hcho : hole < largerChild lt a n (2 * hole + 1) := by omega
          exact Or.inr ⟨hcho, hcn, rfl⟩
        · rcases ih _ n _ p ppos hcn e he with h | ⟨h1, h2, h3⟩
          · exact Or.inl h
          · refine Or.inr ⟨by omega, h2, ?_⟩
            rw [h3, geti_set_ne a hole e.2.1 _ (by omega)]
    · simp only [List.mem_singleton] at he
      subst he
      exact Or.inl ⟨rfl, rfl⟩

theorem upHeapCF_from (lt : α → α → Bool) (fuel : Nat) :
    ∀ (a : List α) (pos : Nat) (p : α) (ppos : Nat),
    ∀ e ∈ (upHeapCF lt fuel a pos p ppos).2,
      (e.1 = p ∧ e.2.1 = ppos) ∨ (e.2.1 < pos ∧ e.1 = geti a e.2.1) := by
  induction fuel with
  | zero =>
    intro a pos p ppos e he
    simp only [upHeapCF, List.mem_singleton] at he
    subst he
    exact Or.inl ⟨rfl, rfl⟩
  | succ fuel ih =>
    intro a pos p ppos e he
    unfold upHeapCF at he
    dsimp only at he
    split at he
    · rename_i hcond
      simp only [List.mem_cons] at he
      have hparlt : (pos - 1) / 2 < pos := by
        have := Nat.div_le_self (pos - 1) 2
        omega
      rcases he with he | he
      · subst he
        exact Or.inr ⟨hparlt, rfl⟩
      · rcases ih _ _ p ppos e he with h | ⟨h1, h2⟩
        · exact Or.inl h
        · refine Or.inr ⟨by omega, ?_⟩
          rw [h2, geti_set_ne a pos e.2.1 _ (by omega)]
    · simp only [List.mem_singleton] at he
      subst he
      exact Or.inl ⟨rfl, rfl⟩

/-!
Exactly one report per relocation: within one sift the reported `to` slots
are pairwise distinct (strictly monotone), so no slot is double-reported.
-/

theorem downHeapCF_to_pairwise (lt : α → α → Bool) (fuel : Nat) :
    ∀ (a : List α) (n hole : Nat) (p : α) (ppos : Nat), hole < n →
    List.Pairwise (fun x y : α × Nat × Nat => x.2.2 < y.2.2)
      (downHeapCF lt fuel a n hole p ppos).2 := by
  induction fuel with
  | zero =>
    intro a n hole p ppos hn
    simp [downHeapCF]
  | succ fuel ih =>
    intro a n hole p ppos hn
    unfold downHeapCF
    dsimp only
    split
    · rename_i hguard
      split
      · simp
      · refine List.Pairwise.cons ?_ ?_
        · intro e he
          have hcge := largerChild_ge lt a n (2 * hole + 1)
          have hcn := largerChild_lt_n lt a n (2 * hole + 1) hguard
          have := downHeapCF_to_mem lt fuel _ n _ p ppos hcn e he
          show hole < e.2.2
          omega
        · exact ih _ n _ p ppos (largerChild_lt_n lt a n _ hguard)
    · simp

theorem upHeapCF_to_pairwise (lt : α → α → Bool) (fuel : Nat) :
    ∀ (a : List α) (pos : Nat) (p : α) (ppos : Nat),
    List.Pairwise (fun x y : α × Nat × Nat => y.2.2 < x.2.2)
      (upHeapCF lt fuel a pos p ppos).2 := by
  induction fuel with
  | zero =>
    intro a pos p ppos
    simp [upHeapCF]
  | succ fuel ih =>
    intro a pos p ppos
    unfold upHeapCF
    dsimp only
    split
    · rename_i hcond
      refine List.Pairwise.cons ?_ ?_
      · intro e he
        have hparlt : (pos - 1) / 2 < pos := by
          have := Nat.div_le_self (pos - 1) 2
          omega
        have := upHeapCF_to_mem lt fuel _ _ p ppos e he
        show e.2.2 < pos
        omega
      · exact ih _ _ p ppos
    · simp

/-!
Checked variants of the observer push/pop used for the empty-range claim:
reads are modelled with `getElem?`, so an out-of-range read yields `none`.
On the empty range, `pop_heap` (heap.hpp:731) and `push_heap`
(heap.hpp:708) with observer read `*(last - 1)` resp. `*(first + lastPos)`
with `lastPos = -1`: a slot before the range.
-/

def popHeapCChk (lt : α → α → Bool) (a : List α) :
    Option (List α × List (α × Nat × Nat)) :=
  let n := a.length
  let r := if 1 < n then
      downHeapC lt (a.set (n - 1) (geti a 0)) (n - 1) 0 (geti a (n - 1)) (n - 1)
    else (a, [])
  match r.1[n - 1]? with
  | none => none
  | some v => some (r.1, r.2 ++ [(v, 0, n - 1)])

def pushHeapCChk (lt : α → α → Bool) (a : List α) :
    Option (List α × List (α × Nat × Nat)) :=
  if 0 < a.length - 1
      ∧ lt (geti a ((a.length - 1 - 1) / 2)) (geti a (a.length - 1)) = true then
    some (upHeapC lt a (a.length - 1) (geti a (a.length - 1)) (a.length - 1))
  else
    match a[a.length - 1]? with
    | none => none
    | some v => some (a, [(v, a.length - 1, a.length - 1)])

/-!
Concrete comparators for the witnesses and counterexamples.
-/

/-- The default less-than on `Int`. -/
def ltInt : Int → Int → Bool := fun x y => decide (x < y)

/-- A comparator on pairs that only inspects the first component: a strict
weak order with nontrivial equivalence classes, used to observe
tie-breaking. -/
def ltPair : Int × Int → Int × Int → Bool := fun x y => decide (x.1 < y.1)

theorem ltInt_asym : ∀ x y, ltInt x y = true → ltInt y x = false := by
  intro x y h
  simp only [ltInt, decide_eq_true_eq] at h
  simp only [ltInt, decide_eq_false_iff_not]
  omega

theorem ltInt_neg :
    ∀ x y z, ltInt x y = false → ltInt y z = false → ltInt x z = false := by
  intro x y z h1 h2
  simp only [ltInt, decide_eq_false_iff_not] at h1 h2 ⊢
  omega

theorem ltPair_asym : ∀ x y, ltPair x y = true → ltPair y x = false := by
  intro x y h
  simp only [ltPair, decide_eq_true_eq] at h
  simp only [ltPair, decide_eq_false_iff_not]
  omega

theorem ltPair_neg :
    ∀ x y z, ltPair x y = false → ltPair y z = false → ltPair x z = false := by
  intro x y z h1 h2
  simp only [ltPair, decide_eq_false_iff_not] at h1 h2 ⊢
  omega

/-- `make_heap` leaves a sequence on which `is_heap` returns true, and
permutes the input (shared helper for the make-heap claims). -/
theorem makeHeap_establishes (lt : α → α → Bool)
    (hasym : ∀ x y, lt x y = true → lt y x = false)
    (hneg : ∀ x y z, lt x y = false → lt y z = false → lt x z = false)
    (a : List α) :
    isHeapB lt (makeHeap lt a) = true ∧ List.Perm (makeHeap lt a) a := by
  obtain ⟨hh, hm, _⟩ := makeHeap_correct lt hasym hneg a
  exact ⟨(isHeapB_iff lt (makeHeap lt a)).mpr hh, Multiset.coe_eq_coe.mp hm⟩

/-!
Claim theorems.
-/

/-- C1: for every valid heap `a` of length `n` (under a strict weak order)
and every `k < n`, the positional `pop_heap(first, last, first + k)` leaves
`a[n-1]` equal to the original `a[k]`, leaves `[0, n-1)` a valid heap, and
the multiset of the prefix equals the original multiset minus the popped
element. -/
theorem claim1_pop_heap_at (lt : α → α → Bool)
    (hasym : ∀ x y, lt x y = true → lt y x = false)
    (hneg : ∀ x y z, lt x y = false → lt y z = false → lt x z = false)
    (a : List α) (k : Nat) (hheap : heapUpTo lt a a.length)
    (hk : k < a.length) :
    (popHeapPos lt a k).length = a.length
      ∧ geti (popHeapPos lt a k) (a.length - 1) = geti a k
      ∧ heapUpTo lt (popHeapPos lt a k) (a.length - 1)
      ∧ (((popHeapPos lt a k).take (a.length - 1) : List α) : Multiset α)
          + {geti a k} = (a : Multiset α) :=
  popHeapPos_correct lt hasym hneg a k hheap hk

theorem claim1_witness :
    (popHeapPos ltInt [16, 14, 10, 8, 7, 9, 3, 2, 4, 1] 4).length
        = ([16, 14, 10, 8, 7, 9, 3, 2, 4, 1] : List Int).length
      ∧ geti (popHeapPos ltInt [16, 14, 10, 8, 7, 9, 3, 2, 4, 1] 4)
          (([16, 14, 10, 8, 7, 9, 3, 2, 4, 1] : List Int).length - 1)
        = geti ([16, 14, 10, 8, 7, 9, 3, 2, 4, 1] : List Int) 4
      ∧ heapUpTo ltInt (popHeapPos ltInt [16, 14, 10, 8, 7, 9, 3, 2, 4, 1] 4)
          (([16, 14, 10, 8, 7, 9, 3, 2, 4, 1] : List Int).length - 1)
      ∧ (((popHeapPos ltInt [16, 14, 10, 8, 7, 9, 3, 2, 4, 1] 4).take
            (([16, 14, 10, 8, 7, 9, 3, 2, 4, 1] : List Int).length - 1)
            : List Int) : Multiset Int)
          + {geti ([16, 14, 10, 8, 7, 9, 3, 2, 4, 1] : List Int) 4}
        = (([16, 14, 10, 8, 7, 9, 3, 2, 4, 1] : List Int) : Multiset Int) :=
  claim1_pop_heap_at ltInt ltInt_asym ltInt_neg
    [16, 14, 10, 8, 7, 9, 3, 2, 4, 1] 4 (by decide) (by decide)

/-- C2: if `a` is a valid heap except that slot `k` has been overwritten by
an arbitrary value `v`, then `update_heap(first, last, first + k)` restores
the heap property H on the whole range and the result is a permutation of
the edited sequence. -/
theorem claim2_update_heap (lt : α → α → Bool)
    (hasym : ∀ x y, lt x y = true → lt y x = false)
    (hneg : ∀ x y z, lt x y = false → lt y z = false → lt x z = false)
    (h0 : List α) (v : α) (k : Nat) (hk : k < h0.length)
    (hheap : heapUpTo lt h0 h0.length) :
    heapUpTo lt (updateHeap lt (h0.set k v) k) h0.length
      ∧ List.Perm (updateHeap lt (h0.set k v) k) (h0.set k v)
      ∧ (updateHeap lt (h0.set k v) k).length = h0.length := by
  obtain ⟨hh, hm, hl⟩ := updateHeap_correct lt hasym hneg h0 v k hk hheap
  exact ⟨hh, Multiset.coe_eq_coe.mp hm, hl⟩

theorem claim2_witness :
    heapUpTo ltInt
        (updateHeap ltInt
          (([16, 14, 10, 8, 7, 9, 3, 2, 4, 1] : List Int).set 7 20) 7)
        ([16, 14, 10, 8, 7, 9, 3, 2, 4, 1] : List Int).length
      ∧ List.Perm
        (updateHeap ltInt
          (([16, 14, 10, 8, 7, 9, 3, 2, 4, 1] : List Int).set 7 20) 7)
        (([16, 14, 10, 8, 7, 9, 3, 2, 4, 1] : List Int).set 7 20)
      ∧ (updateHeap ltInt
          (([16, 14, 10, 8, 7, 9, 3, 2, 4, 1] : List Int).set 7 20) 7).length
        = ([16, 14, 10, 8, 7, 9, 3, 2, 4, 1] : List Int).length :=
  claim2_update_heap ltInt ltInt_asym ltInt_neg
    [16, 14, 10, 8, 7, 9, 3, 2, 4, 1] 20 7 (by decide) (by decide)

/-- C5: for every input and every comparator inducing a strict weak order,
`make_heap(first, last)` establishes the heap property (`is_heap` returns
true afterwards) and the result is a permutation of the input. -/
theorem claim5_make_heap (lt : α → α → Bool)
    (hasym : ∀ x y, lt x y = true → lt y x = false)
    (hneg : ∀ x y z, lt x y = false → lt y z = false → lt x z = false)
    (a : List α) :
    isHeapB lt (makeHeap lt a) = true ∧ List.Perm (makeHeap lt a) a :=
  makeHeap_establishes lt hasym hneg a

theorem claim5_witness :
    isHeapB ltInt (makeHeap ltInt [4, 1, 3, 2, 16, 9, 10, 14, 8, 7]) = true
      ∧ List.Perm (makeHeap ltInt [4, 1, 3, 2, 16, 9, 10, 14, 8, 7])
        ([4, 1, 3, 2, 16, 9, 10, 14, 8, 7] : List Int) :=
  claim5_make_heap ltInt ltInt_asym ltInt_neg [4, 1, 3, 2, 16, 9, 10, 14, 8, 7]

/-- C4 counterexample: the original claim promised success ("terminates
and produces H") on EVERY input sequence, but on inputs of length `≤ 1`
there is no block (`nblocks = 0`), the calling thread's unguarded
`--blocksRemaining` (heap.hpp:932/999) wraps the counter, and
`__down_block` accesses `*(first - 1)` out of range: the model takes the
`none` error path and in particular does not produce the sequential
`make_heap` result. -/
theorem claim4_counterexample :
    parallelMakeHeapSeq ltInt ([] : List Int) 1 = none
      ∧ parallelMakeHeapSeq ltInt ([] : List Int) 1
          ≠ some (makeHeap ltInt ([] : List Int))
      ∧ parallelMakeHeapSeq ltInt ([5] : List Int) 1 = none
      ∧ parallelMakeHeapSeq ltInt ([5] : List Int) 1
          ≠ some (makeHeap ltInt ([5] : List Int)) := by
  decide

/-- C4 (amended): whenever at least one block exists — i.e. the input has
length `≥ 2` — and for every `blockSize ≥ 1` (independently of the thread
count, which the sequentialized decreasing-block-order model does not
observe), `parallel_make_heap` succeeds and computes exactly the same
sequence as sequential `make_heap`; in particular the result satisfies H
and carries the same multiset as the input.  For inputs of length `≤ 1`
the unguarded counter claim underflows and the build takes the
out-of-range error path instead. -/
theorem claim4_parallel_make_heap (lt : α → α → Bool)
    (hasym : ∀ x y, lt x y = true → lt y x = false)
    (hneg : ∀ x y z, lt x y = false → lt y z = false → lt x z = false)
    (a : List α) (blockSize : Nat) (hbs : 1 ≤ blockSize)
    (hlen : 2 ≤ a.length) :
    parallelMakeHeapSeq lt a blockSize = some (makeHeap lt a)
      ∧ isHeapB lt (makeHeap lt a) = true
      ∧ List.Perm (makeHeap lt a) a := by
  have he := parallelMakeHeapSeq_eq lt a blockSize hbs hlen
  obtain ⟨h5a, h5b⟩ := makeHeap_establishes lt hasym hneg a
  exact ⟨he, h5a, h5b⟩

theorem claim4_witness :
    parallelMakeHeapSeq ltInt [4, 1, 3, 2, 16, 9, 10, 14, 8, 7] 2
        = some (makeHeap ltInt [4, 1, 3, 2, 16, 9, 10, 14, 8, 7])
      ∧ isHeapB ltInt (makeHeap ltInt [4, 1, 3, 2, 16, 9, 10, 14, 8, 7]) = true
      ∧ List.Perm (makeHeap ltInt [4, 1, 3, 2, 16, 9, 10, 14, 8, 7])
        ([4, 1, 3, 2, 16, 9, 10, 14, 8, 7] : List Int) :=
  claim4_parallel_make_heap ltInt ltInt_asym ltInt_neg
    [4, 1, 3, 2, 16, 9, 10, 14, 8, 7] 2 (by decide) (by decide)

/-- C10: when `pos` refers to the final element (`last - pos <= 1`), the
positional `pop_heap` leaves every slot of the sequence unchanged. -/
theorem claim10_pop_last_noop (lt : α → α → Bool) (a : List α) (k : Nat)
    (h : a.length ≤ k + 1) : popHeapPos lt a k = a := by
  unfold popHeapPos
  rw [if_neg (by omega)]

theorem claim10_witness :
    popHeapPos ltInt [7, 3, 5] 2 = ([7, 3, 5] : List Int) :=
  claim10_pop_last_noop ltInt [7, 3, 5] 2 (by decide)

/-- C6 counterexample: with the pair comparator, the only child `(5,1)` is
equivalent to the sifted value `(5,9)` (neither is less than the other),
yet `__down_heap` does not stop at the hole: it moves the child up and
places `p` below, so the result differs from `a.set hole p`.  This refutes
the claim that a child is moved up only when strictly greater than `p` and
that the descent stops on equivalence. -/
theorem claim6_counterexample :
    ltPair ((5, 1) : Int × Int) ((5, 9) : Int × Int) = false
      ∧ ltPair ((5, 9) : Int × Int) ((5, 1) : Int × Int) = false
      ∧ downHeap ltPair [((7, 7) : Int × Int), (5, 1)] 2 0 ((5, 9) : Int × Int)
          ≠ List.set [((7, 7) : Int × Int), (5, 1)] 0 ((5, 9) : Int × Int) := by
  decide

/-- C6 amended: in `__down_heap` the selected child moves up into the hole
exactly when it is NOT strictly less than `p` (so also when the two are
equivalent); the descent stops only when the larger child is strictly less
than `p`, or when there are no children. -/
theorem claim6_amended (lt : α → α → Bool) (a : List α) (n hole : Nat)
    (p : α) (hn : hole < n) (hlen : n ≤ a.length) :
    (2 * hole + 1 < n →
        lt (geti a (largerChild lt a n (2 * hole + 1))) p = true →
        downHeap lt a n hole p = a.set hole p)
      ∧ (2 * hole + 1 < n →
        lt (geti a (largerChild lt a n (2 * hole + 1))) p = false →
        geti (downHeap lt a n hole p) hole
          = geti a (largerChild lt a n (2 * hole + 1)))
      ∧ (¬ 2 * hole + 1 < n → downHeap lt a n hole p = a.set hole p) := by
  unfold downHeap
  cases n with
  | zero => omega
  | succ m =>
    refine ⟨?_, ?_, ?_⟩
    · intro hguard hbrk
      show downHeapF lt (m + 1) a (m + 1) hole p = a.set hole p
      unfold downHeapF
      dsimp only
      rw [if_pos hguard, if_pos hbrk]
    · intro hguard hmv
      have hcn : largerChild lt a (m + 1) (2 * hole + 1) < m + 1 :=
        largerChild_lt_n lt a (m + 1) _ hguard
      have hcgt : hole < largerChild lt a (m + 1) (2 * hole + 1) := by
        have := largerChild_ge lt a (m + 1) (2 * hole + 1)
        omega
      show geti (downHeapF lt (m + 1) a (m + 1) hole p) hole = _
      unfold downHeapF
      dsimp only
      rw [if_pos hguard, if_neg (by rw [hmv]; simp),
        downHeapF_frame lt m _ (m + 1) _ p hcn hole
          (Or.inl fun hd => by have := hd.le; omega),
        geti_set_self a hole _ (by omega)]
    · intro hguard
      show downHeapF lt (m + 1) a (m + 1) hole p = a.set hole p
      unfold downHeapF
      dsimp only
      rw [if_neg hguard]

theorem claim6_amended_witness :
    (2 * 0 + 1 < 2 →
        ltPair
          (geti ([((7, 7) : Int × Int), (5, 1)])
            (largerChild ltPair [((7, 7) : Int × Int), (5, 1)] 2 (2 * 0 + 1)))
          ((5, 9) : Int × Int) = true →
        downHeap ltPair [((7, 7) : Int × Int), (5, 1)] 2 0 ((5, 9) : Int × Int)
          = List.set [((7, 7) : Int × Int), (5, 1)] 0 ((5, 9) : Int × Int))
      ∧ (2 * 0 + 1 < 2 →
        ltPair
          (geti ([((7, 7) : Int × Int), (5, 1)])
            (largerChild ltPair [((7, 7) : Int × Int), (5, 1)] 2 (2 * 0 + 1)))
          ((5, 9) : Int × Int) = false →
        geti (downHeap ltPair [((7, 7) : Int × Int), (5, 1)] 2 0
            ((5, 9) : Int × Int)) 0
          = geti ([((7, 7) : Int × Int), (5, 1)])
            (largerChild ltPair [((7, 7) : Int × Int), (5, 1)] 2 (2 * 0 + 1)))
      ∧ (¬ 2 * 0 + 1 < 2 →
        downHeap ltPair [((7, 7) : Int × Int), (5, 1)] 2 0 ((5, 9) : Int × Int)
          = List.set [((7, 7) : Int × Int), (5, 1)] 0 ((5, 9) : Int × Int)) :=
  claim6_amended ltPair [((7, 7) : Int × Int), (5, 1)] 2 0 ((5, 9) : Int × Int)
    (by decide) (by decide)

/-- C7 counterexample: with the pair comparator the two children `(5,1)`
and `(5,2)` compare equal, and the implementation selects the LEFT child
(index `2*hole+1 = 1`), not the right one, refuting the claim that the
right child is selected on ties. -/
theorem claim7_counterexample :
    ltPair ((5, 1) : Int × Int) ((5, 2) : Int × Int) = false
      ∧ ltPair ((5, 2) : Int × Int) ((5, 1) : Int × Int) = false
      ∧ largerChild ltPair [((0, 0) : Int × Int), (5, 1), (5, 2)] 3 (2 * 0 + 1)
          = 2 * 0 + 1
      ∧ (2 * 0 + 1 : Nat) ≠ 2 * 0 + 2 := by
  decide

/-- C7 amended: when the two children compare equal (`lt(left, right)` is
false) the LEFT child `2*hole+1` is selected; the right child is selected
exactly when `lt(left, right)` is true (and it is in range). -/
theorem claim7_amended (lt : α → α → Bool) (a : List α) (n c0 : Nat) :
    (lt (geti a c0) (geti a (c0 + 1)) = false → largerChild lt a n c0 = c0)
      ∧ (c0 < n - 1 → lt (geti a c0) (geti a (c0 + 1)) = true →
        largerChild lt a n c0 = c0 + 1) := by
  constructor
  · intro h
    unfold largerChild
    rw [if_neg]
    rintro ⟨_, h2⟩
    rw [h] at h2
    exact absurd h2 (by simp)
  · intro h1 h2
    unfold largerChild
    rw [if_pos ⟨h1, h2⟩]

theorem claim7_amended_witness :
    largerChild ltPair [((0, 0) : Int × Int), (5, 1), (5, 2)] 3 1 = 1 :=
  (claim7_amended ltPair [((0, 0) : Int × Int), (5, 1), (5, 2)] 3 1).1
    (by decide)

/-- C8: on the empty range the plain sequential operations are no-ops and
`is_heap` returns true, but the observer variants of `pop_heap`
(heap.hpp:731) and `push_heap` (heap.hpp:708) read the slot before the
range (`*(last - 1)` with `first == last`), an out-of-range access — the
checked embeddings return `none` on `[]` — and `parallel_make_heap`
underflows its unguarded `--blocksRemaining` claim (heap.hpp:932/999) so
that `__down_block` accesses `*(first - 1)`, likewise modelled as
`none`. -/
theorem claim8_empty_range :
    popHeapCChk ltInt ([] : List Int) = none
      ∧ pushHeapCChk ltInt ([] : List Int) = none
      ∧ makeHeap ltInt ([] : List Int) = []
      ∧ pushHeap ltInt ([] : List Int) = []
      ∧ popHeap ltInt ([] : List Int) = []
      ∧ sortHeap ltInt ([] : List Int) = []
      ∧ isHeapB ltInt ([] : List Int) = true
      ∧ parallelMakeHeapSeq ltInt ([] : List Int) 1 = none := by
  decide

/-- C9: each block claim takes the new value of the mod-2^64 decremented
counter as its block index.  While `d ≤ nblocks` claims have happened the
value is the true index `nblocks - d` and the emptiness test is false;
once the counter has passed zero every subsequent decrement yields a
wrapped value in `[2^64 - nthreads, 2^64)`, for which the overflow-safe
test `v + nthreads < nthreads (mod 2^64)` is true, so the claimer exits
and no wrapped value is used as a block index; at most
`nblocks + nthreads` decrements ever occur. -/
theorem claim9_claim_counter (nblocks nthreads d e d2 : Nat)
    (h1 : 1 ≤ nthreads) (h2 : 1 ≤ nblocks) (hsz : nblocks + nthreads < uWord)
    (hcl : Claims nblocks nthreads d e) (hd2a : 1 ≤ d2) (hd2b : d2 ≤ d) :
    d ≤ nblocks + nthreads
      ∧ (d2 ≤ nblocks →
        counterAfter nblocks d2 = nblocks - d2
          ∧ counterAfter nblocks d2 < nblocks
          ∧ claimEmpty (counterAfter nblocks d2) nthreads = false)
      ∧ (nblocks < d2 →
        uWord - nthreads ≤ counterAfter nblocks d2
          ∧ counterAfter nblocks d2 < uWord
          ∧ claimEmpty (counterAfter nblocks d2) nthreads = true) := by
  obtain ⟨hi1, hi2, hi3⟩ := claims_invariant nblocks nthreads h1 hsz d e hcl
  have hupos : 0 < uWord := by
    unfold uWord
    norm_num
  refine ⟨hi3, ?_, ?_⟩
  · intro hle
    have hv := counterAfter_ge nblocks d2 hle (by omega)
    exact ⟨hv, by omega,
      hv ▸ claimEmpty_false_of_index nthreads (nblocks - d2) (by omega)⟩
  · intro hgt
    have hv := counterAfter_le nblocks d2 (by omega) (by omega) (by omega)
    refine ⟨by omega, by omega, ?_⟩
    rw [hv]
    exact claimEmpty_true_of_wrapped nthreads (d2 - nblocks) (by omega)
      (by omega) (by omega)

theorem claim9_witness :
    (3 : Nat) ≤ 2 + 1
      ∧ ((3 : Nat) ≤ 2 →
        counterAfter 2 3 = 2 - 3
          ∧ counterAfter 2 3 < 2
          ∧ claimEmpty (counterAfter 2 3) 1 = false)
      ∧ ((2 : Nat) < 3 →
        uWord - 1 ≤ counterAfter 2 3
          ∧ counterAfter 2 3 < uWord
          ∧ claimEmpty (counterAfter 2 3) 1 = true) :=
  claim9_claim_counter 2 1 3 1 3 (by decide) (by decide)
    (by unfold uWord; norm_num)
    (Claims.step (Claims.step (Claims.step Claims.start (by decide))
      (by decide)) (by decide))
    (by decide) (by decide)

/-- C3: the move-callback contract of the observer variants.  For every
comparator, every sequence `a` with `1 ≤ a.length` and every in-range
position `k`:
(i) observer transparency and replay soundness for all six observer
operations — the callback variant computes the same final sequence as the
plain one, and applying the reported moves `a[to] := value` in order to
the input reconstructs that final sequence, so the stream covers every
relocation the operation performs;
(ii) a `from == to` report is still issued when nothing moves: `push_heap`
with no sift reports `(a[n-1], n-1, n-1)`, `pop_heap` on a singleton
reports `(a[0], 0, 0)`, and the positional pop at the last slot reports
`(a[k], k, k)`;
(iii) origin correctness and uniqueness for the sift primitives: every
event either reports the sifted value with its declared origin slot, or a
value that still sits at the reported `from` slot, and the reported `to`
slots of one sift are strictly monotone, so each relocation is reported
exactly once. -/
theorem claim3_move_callbacks (lt : α → α → Bool) (a : List α) (k : Nat)
    (h1 : 1 ≤ a.length) (hk : k < a.length) :
    (((makeHeapC lt a).1 = makeHeap lt a
        ∧ replay a (makeHeapC lt a).2 = (makeHeapC lt a).1)
      ∧ ((pushHeapC lt a).1 = pushHeap lt a
        ∧ replay a (pushHeapC lt a).2 = (pushHeapC lt a).1)
      ∧ ((popHeapC lt a).1 = popHeap lt a
        ∧ replay a (popHeapC lt a).2 = (popHeapC lt a).1)
      ∧ ((popHeapPosC lt a k).1 = popHeapPos lt a k
        ∧ replay a (popHeapPosC lt a k).2 = (popHeapPosC lt a k).1)
      ∧ ((sortHeapC lt a).1 = sortHeap lt a
        ∧ replay a (sortHeapC lt a).2 = (sortHeapC lt a).1)
      ∧ ((updateHeapC lt a k).1 = updateHeap lt a k
        ∧ replay a (updateHeapC lt a k).2 = (updateHeapC lt a k).1))
    ∧ ((¬ (0 < a.length - 1
          ∧ lt (geti a ((a.length - 1 - 1) / 2)) (geti a (a.length - 1))
            = true) →
        (pushHeapC lt a).2
          = [(geti a (a.length - 1), a.length - 1, a.length - 1)])
      ∧ (a.length = 1 → (popHeapC lt a).2 = [(geti a 0, 0, 0)])
      ∧ (a.length = k + 1 → (popHeapPosC lt a k).2 = [(geti a k, k, k)]))
    ∧ ((∀ (b : List α) (n hole : Nat) (p : α) (ppos : Nat), hole < n →
        ∀ e ∈ (downHeapC lt b n hole p ppos).2,
          (e.1 = p ∧ e.2.1 = ppos)
            ∨ (hole < e.2.1 ∧ e.2.1 < n ∧ e.1 = geti b e.2.1))
      ∧ (∀ (b : List α) (pos : Nat) (p : α) (ppos : Nat),
        ∀ e ∈ (upHeapC lt b pos p ppos).2,
          (e.1 = p ∧ e.2.1 = ppos) ∨ (e.2.1 < pos ∧ e.1 = geti b e.2.1))
      ∧ (∀ (b : List α) (n hole : Nat) (p : α) (ppos : Nat), hole < n →
        List.Pairwise (fun x y : α × Nat × Nat => x.2.2 < y.2.2)
          (downHeapC lt b n hole p ppos).2)
      ∧ (∀ (b : List α) (pos : Nat) (p : α) (ppos : Nat),
        List.Pairwise (fun x y : α × Nat × Nat => y.2.2 < x.2.2)
          (upHeapC lt b pos p ppos).2)) := by
  refine ⟨⟨⟨makeHeapC_fst lt a, makeHeapC_replay lt a⟩,
    ⟨pushHeapC_fst lt a, pushHeapC_replay lt a⟩,
    ⟨popHeapC_fst lt a, popHeapC_replay lt a⟩,
    ⟨popHeapPosC_fst lt a k, popHeapPosC_replay lt a k⟩,
    ⟨sortHeapC_fst lt a, sortHeapC_replay lt a⟩,
    ⟨updateHeapC_fst lt a k, updateHeapC_replay lt a k⟩⟩,
    ⟨?_, ?_, ?_⟩, ⟨?_, ?_, ?_, ?_⟩⟩
  · intro hc
    unfold pushHeapC
    rw [if_neg hc]
  · intro hlen
    unfold popHeapC
    dsimp only
    rw [if_neg (by omega)]
    simp [hlen]
  · intro hlen
    unfold popHeapPosC
    dsimp only
    rw [if_neg (by omega)]
    have he : a.length - 1 = k := by omega
    simp [he]
  · intro b n hole p ppos hn e he
    exact downHeapCF_from lt n b n hole p ppos hn e he
  · intro b pos p ppos e he
    exact upHeapCF_from lt pos b pos p ppos e he
  · intro b n hole p ppos hn
    exact downHeapCF_to_pairwise lt n b n hole p ppos hn
  · intro b pos p ppos
    exact upHeapCF_to_pairwise lt pos b pos p ppos

theorem claim3_witness :
    ((makeHeapC ltInt [5, 2, 7]).1 = makeHeap ltInt [5, 2, 7]
        ∧ replay ([5, 2, 7] : List Int) (makeHeapC ltInt [5, 2, 7]).2
          = (makeHeapC ltInt [5, 2, 7]).1)
      ∧ ((pushHeapC ltInt [5, 2, 7]).1 = pushHeap ltInt [5, 2, 7]
        ∧ replay ([5, 2, 7] : List Int) (pushHeapC ltInt [5, 2, 7]).2
          = (pushHeapC ltInt [5, 2, 7]).1)
      ∧ ((popHeapC ltInt [5, 2, 7]).1 = popHeap ltInt [5, 2, 7]
        ∧ replay ([5, 2, 7] : List Int) (popHeapC ltInt [5, 2, 7]).2
          = (popHeapC ltInt [5, 2, 7]).1)
      ∧ ((popHeapPosC ltInt [5, 2, 7] 1).1 = popHeapPos ltInt [5, 2, 7] 1
        ∧ replay ([5, 2, 7] : List Int) (popHeapPosC ltInt [5, 2, 7] 1).2
          = (popHeapPosC ltInt [5, 2, 7] 1).1)
      ∧ ((sortHeapC ltInt [5, 2, 7]).1 = sortHeap ltInt [5, 2, 7]
        ∧ replay ([5, 2, 7] : List Int) (sortHeapC ltInt [5, 2, 7]).2
          = (sortHeapC ltInt [5, 2, 7]).1)
      ∧ ((updateHeapC ltInt [5, 2, 7] 1).1 = updateHeap ltInt [5, 2, 7] 1
        ∧ replay ([5, 2, 7] : List Int) (updateHeapC ltInt [5, 2, 7] 1).2
          = (updateHeapC ltInt [5, 2, 7] 1).1) :=
  (claim3_move_callbacks ltInt [5, 2, 7] 1 (by decide) (by decide)).1

end MasHeap
